import Mathlib

/-!
Verification of the `cp_sim` parameter-sweep harness.

Shallow embedding of the relevant parts of the repository:
* `src/cp_sim/models/__model__.py` — the bounded-time task runner (`__Model__.run`,
  `__Model__.__run__`, `__Model__.get_output`);
* `src/cp_sim/simulate.py` — `get_combinations`, `quick_spline`, `get_trajectories`,
  `get_grain_dict`;
* `src/cp_sim/helper/general.py` — `round_sf`, `dict_to_csv`, `csv_to_dict`, `get_sorted`;
* `src/__old__/run_1.py` — `get_top`.

Python floats are modelled as exact rationals (`ℚ`), Python `None`-able values as
`Option`, and code that can raise as `Option`-returning definitions.
-/

namespace CpSim

/-! ## Bounded-time task runner (`src/cp_sim/models/__model__.py`)

`__Model__.run` starts a worker thread executing `__run__`, joins it with a timeout,
and classifies the outcome:

```
thread = threading.Thread(target=self.__run__, kwargs=param_dict)
thread.start()
thread.join(timeout=max_time)
if thread.is_alive():
    return "timeout"
if self.output == None:
    return "failed"
return "success"
```

`__run__` wraps the user model in a bare `try/except`:

```
try:
    output = self.run_model(**params)
    self.output = output
except:
    self.output = None
```

We model the behaviour of one `run_model` call as a `RunResult`: either it raises an
exception, or it returns a Python value, which may itself be `None` (`Option V`,
`none` standing for Python `None`; `run_model`'s docstring says it "returns none if
the parameters / model is invalid").  Whether the worker thread finishes before the
`join` deadline is a boolean `finished` (= `not thread.is_alive()`).
-/

/-- Behaviour of one `run_model` invocation: it raises, or returns a Python value
(`none` = Python `None`). -/
inductive RunResult (V : Type) where
  | raises : RunResult V
  | returns : Option V → RunResult V
deriving DecidableEq

/-- `__Model__.__run__` (lines 60-68): the value stored into `self.output` by the
worker — the returned value on normal completion, Python `None` when `run_model`
raises.  The `except:` clause catches every exception, so `__run__` always
terminates normally (totality of this function). -/
def runWorkerOutput {V : Type} : RunResult V → Option V
  | .raises => none
  | .returns v => v

/-- The status classification at the end of `__Model__.run` (lines 54-58), given
whether the worker finished before the deadline (`finished = ¬ thread.is_alive()`)
and the current contents of `self.output`. -/
def runStatus {V : Type} (finished : Bool) (output : Option V) : String :=
  if !finished then "timeout"
  else if output.isNone then "failed"
  else "success"

/-- `__Model__.run` (lines 36-58) for a single sweep entry, as a function of the
worker's behaviour: returns the reported status together with the contents of
`self.output` as observed by the driver at that point.  When the worker does not
finish before the deadline, the driver returns `"timeout"` without reading or
writing `self.output` (`prevOutput` is whatever was stored there before). -/
def modelRun {V : Type} (finished : Bool) (result : RunResult V) (prevOutput : Option V) :
    String × Option V :=
  if finished then
    (runStatus true (runWorkerOutput result), runWorkerOutput result)
  else
    ("timeout", prevOutput)

/-- `self.output` after a sequence of worker-thread assignments `self.output = w`
(each element of `writes` is one execution of the assignment in `__run__`, in the
chronological order the threads performed them): the field holds the last write.
`self.output` lives on the model object, so it is shared by the workers of all
sweep entries run against that object. -/
def sharedOutputAfter {V : Type} (writes : List (Option V)) (init : Option V) : Option V :=
  writes.foldl (fun _ w => w) init

/-! ## Parameter space generator (`src/cp_sim/simulate.py`, `get_combinations`)

```
param_list = list(params_dict.values())
combinations = list(itertools.product(*param_list))
combinations = [list(c) for c in combinations]
```

The input is modelled as the ordered list of per-field candidate lists
(`list(params_dict.values())`; Python dicts preserve insertion order).
`itertools.product(A, B, ...)` enumerates tuples in the order
`[(a, b, ...) for a in A for b in B ...]` — the last factor varies fastest. -/

/-- `get_combinations` (lines 15-27): the Cartesian product of the candidate lists in
`itertools.product` order (first field slowest, last field fastest). -/
def get_combinations {α : Type} : List (List α) → List (List α)
  | [] => [[]]
  | l :: ls => l.flatMap (fun x => (get_combinations ls).map (fun c => x :: c))

end CpSim

namespace CpSim

/-- Claim C1 (amended), helper: the status returned by `run` is always one of the
three strings. -/
theorem runStatus_cases {V : Type} (finished : Bool) (output : Option V) :
    runStatus finished output = "timeout" ∨ runStatus finished output = "failed" ∨
      runStatus finished output = "success" := by
  unfold runStatus
  rcases finished with _ | _ <;> rcases output with _ | v <;> simp

end CpSim

namespace CpSim

/-- **C1, counterexample.**  A task that finishes before the deadline without raising,
but whose `run_model` returns Python `None` (its docstring explicitly allows this for
invalid parameters), is reported `"failed"`, not `"success"`: the claim's
"`success` if and only if the task completes before the deadline without raising"
is false at this input. -/
theorem c1_run_counterexample :
    (modelRun true (RunResult.returns (none : Option ℚ)) none).1 = "failed" ∧
      (modelRun true (RunResult.returns (none : Option ℚ)) none).1 ≠ "success" := by
  constructor <;> simp [modelRun, runStatus, runWorkerOutput]

/-- **C1 (amended).**  For every task behaviour and deadline outcome, `run` returns:
`"timeout"` iff the worker has not finished when the deadline expires; `"failed"` iff
the worker finished and `run_model` either raised or returned `None`; `"success"` iff
the worker finished and `run_model` returned a non-`None` value.  The status is always
one of these three strings, so an exception raised inside the task never propagates
to the caller of `run` (it is absorbed by `__run__` into `self.output = None`). -/
theorem c1_run_status_amended {V : Type} (finished : Bool) (result : RunResult V)
    (prev : Option V) :
    ((modelRun finished result prev).1 = "timeout" ↔ finished = false) ∧
    ((modelRun finished result prev).1 = "failed" ↔
      finished = true ∧ runWorkerOutput result = none) ∧
    ((modelRun finished result prev).1 = "success" ↔
      finished = true ∧ ∃ v, runWorkerOutput result = some v) ∧
    ((modelRun finished result prev).1 = "timeout" ∨
      (modelRun finished result prev).1 = "failed" ∨
      (modelRun finished result prev).1 = "success") := by
  rcases finished with _ | _ <;> rcases h : runWorkerOutput result with _ | v <;>
    simp [modelRun, runStatus, h]

/-- **C9, counterexample.**  `self.output` is mutable state shared between sequential
sweep entries: entry 1 times out and is abandoned; entry 2's worker completes in time
and writes `some 7`; the abandoned worker of entry 1 then finishes with an exception
and writes `none` (`self.output = None`) before the driver evaluates entry 2's status.
The driver reports `"failed"` for entry 2 and `get_output` returns the abandoned
worker's late result, contradicting the claim that a timed-out worker's later
completion is never observed and that no mutable state is shared between entries. -/
theorem c9_shared_output_counterexample :
    runStatus true (sharedOutputAfter [some (7 : ℚ), none] none) = "failed" ∧
      sharedOutputAfter [some (7 : ℚ), none] none ≠ some 7 := by
  constructor <;> simp [runStatus, sharedOutputAfter]

/-- **C9 (amended).**  The part of the claim the code does satisfy: when a sweep
entry times out, the driver's call to `run` returns `"timeout"` and does not read or
act on the worker's eventual internal outcome — the returned pair is independent of
the worker's result.  (The rest of the original claim is false: `self.output` is
shared between sequential entries, see the counterexample.) -/
theorem c9_timeout_final_amended {V : Type} (result result' : RunResult V)
    (prev : Option V) :
    modelRun false result prev = ("timeout", prev) ∧
      modelRun false result prev = modelRun false result' prev := by
  constructor <;> simp [modelRun]

/-- **C3.**  The number of combinations returned by `get_combinations` is the product
of the lengths of the candidate lists; in particular any empty candidate list makes
the product zero, so the result is the empty list, not an error. -/
theorem c3_get_combinations_length {α : Type} (params : List (List α)) :
    (get_combinations params).length = (params.map List.length).prod := by
  induction params with
  | nil => simp [get_combinations]
  | cons l ls ih =>
    have hsum : ∀ (m : List α) (c : ℕ), (m.map fun _ => c).sum = m.length * c := by
      intro m c
      induction m with
      | nil => simp
      | cons a m ihm => simp [ihm, Nat.succ_mul, Nat.add_comm]
    simp only [get_combinations, List.length_flatMap, Function.comp_def, List.length_map,
      List.map_cons, List.prod_cons]
    rw [hsum, ih]

/-- Indexing into a `flatMap` whose blocks all have the same length `L`:
position `i * L + j` lands in block `i` at offset `j`. -/
theorem flatMap_get?_uniform {α β : Type} (f : α → List β) (L : ℕ)
    (hL : ∀ x, (f x).length = L) (l : List α) (i j : ℕ) (hi : i < l.length) (hj : j < L) :
    (l.flatMap f).get? (i * L + j) = (f (l.get ⟨i, hi⟩)).get? j := by
  induction l generalizing i with
  | nil => exact absurd hi (by simp)
  | cons x l ihl =>
    cases i with
    | zero =>
      have hjx : j < (f x).length := by rw [hL x]; exact hj
      simpa [List.flatMap_cons] using List.get?_append hjx
    | succ i =>
      have hi' : i < l.length := by simpa using hi
      have hlen : (f x).length ≤ (i + 1) * L + j := by
        rw [hL x]
        calc L ≤ (i + 1) * L := Nat.le_mul_of_pos_left L (Nat.succ_pos i)
          _ ≤ (i + 1) * L + j := Nat.le_add_right _ _
      have hsub : (i + 1) * L + j - (f x).length = i * L + j := by
        rw [hL x]; rw [Nat.succ_mul]; omega
      rw [List.flatMap_cons, List.get?_append_right hlen, hsub]
      exact ihl i hi'

/-- **C7.**  `get_combinations` enumerates the Cartesian product in the standard
mixed-radix order with the first field varying slowest and the last fastest: the
combination at position `i * N + j` (where `N` is the number of combinations of the
remaining fields) starts with the `i`-th candidate of the first field, followed by
the `j`-th combination of the remaining fields.  Downstream positional indexing of
combinations is therefore well-defined. -/
theorem c7_get_combinations_order {α : Type} (hd : List α) (tl : List (List α))
    (i j : ℕ) (hi : i < hd.length) (hj : j < (get_combinations tl).length) :
    (get_combinations (hd :: tl)).get? (i * (get_combinations tl).length + j) =
      some (hd.get ⟨i, hi⟩ :: (get_combinations tl).get ⟨j, hj⟩) := by
  have h := flatMap_get?_uniform (fun x => (get_combinations tl).map (fun c => x :: c))
    (get_combinations tl).length (fun x => by simp) hd i j hi hj
  rw [get_combinations, h, List.get?_map, List.get?_eq_get hj]
  rfl

/-- **C7, witness.**  Two fields with 3 candidates each: the 9 combinations come in
Cartesian order; position `2 * 3 + 1 = 7` holds the third first-field candidate paired
with the second second-field candidate. -/
theorem c7_get_combinations_order_witness :
    (get_combinations [[(10 : ℚ), 20, 30], [1, 2, 3]]).get? 7 = some [30, 2] := by
  have h := c7_get_combinations_order [(10 : ℚ), 20, 30] [[1, 2, 3]] 2 1
    (by decide) (by decide)
  simpa using h

/-! ## Result sink (`src/cp_sim/helper/general.py`, `dict_to_csv` / `csv_to_dict`)

A record value is a Python float or a Python list of floats; floats are modelled as
exact rationals (`str`/`float` round-trips a Python float exactly, which the claim
phrases as "modulo floating-point text round-trip precision").  A Python dict is
modelled as an association list in insertion order; in Python its keys are distinct,
which theorems state as a `Nodup` hypothesis.  The CSV file on disk is modelled
structurally: the header line (a list of field names) and the data lines (each a list
of cells, an empty cell `""` being `none`). -/

/-- A value stored in a record passed to `dict_to_csv`: a float scalar or a list of
floats. -/
inductive PyVal where
  | scalar : ℚ → PyVal
  | seq : List ℚ → PyVal
deriving DecidableEq

/-- `isinstance(value, list)`. -/
def PyVal.isList : PyVal → Bool
  | .scalar _ => false
  | .seq _ => true

/-- The list of floats a value contributes to its CSV column: a list is itself, a
scalar `q` is the singleton `[q]` (`dict_to_csv` lines 52-55 rewrite scalars this
way before writing). -/
def PyVal.toSeq : PyVal → List ℚ
  | .scalar q => [q]
  | .seq l => l

/-- A record, i.e. a Python dict from field name to value, in insertion order. -/
abbrev Record := List (String × PyVal)

/-- `data_dict[header]`: the first (in a Python dict: the only) entry with the key. -/
def getKey (r : Record) (k : String) : Option PyVal :=
  (r.find? (fun e => e.1 == k)).map Prod.snd

/-- `data_dict[header] = v`: replace the value at the key. -/
def setKey (r : Record) (k : String) (v : PyVal) : Record :=
  r.map (fun e => if e.1 == k then (e.1, v) else e)

/-- One iteration of the mutation loop at `dict_to_csv` lines 52-55:
`if not isinstance(data_dict[header], list): data_dict[header] = [data_dict[header]]`. -/
def listifyStep (r : Record) (k : String) : Record :=
  match getKey r k with
  | some (.scalar q) => setKey r k (.seq [q])
  | _ => r

/-- The full mutation loop of `dict_to_csv` lines 52-55 (`for header in headers:`):
after it, every value of the dict is a list.  The loop mutates the caller's dict in
place and nothing restores it afterwards. -/
def dictListify (r : Record) : Record :=
  (r.map Prod.fst).foldl listifyStep r

/-- A CSV file as written by `dict_to_csv`: the header line and the data lines; an
empty cell (`""`) is `none`, a float cell is `some q`. -/
structure CsvFile where
  header : List String
  rows : List (List (Option ℚ))
deriving DecidableEq

/-- `max([len(data_dict[header]) for header in headers])`.  Python `max` of a
nonempty list of naturals agrees with `foldl max 0`. -/
def maxListSize (r : Record) : ℕ :=
  (r.map (fun e => e.2.toSeq.length)).foldl max 0

/-- `dict_to_csv` (lines 37-68): if the dict has no keys the function returns before
opening the file (`none` = no file written).  Otherwise every scalar value is turned
into a singleton list in place, the header line is the key list, and one data row is
written per index up to the longest value list, the cell for `header` at row `i`
being `str(data_dict[header][i])` if `i < len(data_dict[header])` and `""`
otherwise. -/
def dict_to_csv (r : Record) : Option CsvFile :=
  if r.isEmpty then none
  else
    let r' := dictListify r
    some { header := r'.map Prod.fst
           rows := (List.range (maxListSize r')).map
             (fun i => r'.map (fun e => e.2.toSeq.get? i)) }

/-- The list built up for one header by the row loop of `csv_to_dict` (lines 92-103):
for each data line, take the cell at the header's column index, skip it if it is
empty (`if value == "": continue`), otherwise parse it back to a float. -/
def csvColumn (rows : List (List (Option ℚ))) (i : ℕ) : List ℚ :=
  rows.filterMap (fun row => (row.get? i).join)

/-- The final loop of `csv_to_dict` (lines 106-108): "Convert single item lists to
items": a one-element column becomes a bare scalar, every other column stays a
list. -/
def collapseSingleton : List ℚ → PyVal
  | [q] => PyVal.scalar q
  | col => PyVal.seq col

/-- `csv_to_dict` (lines 70-112): split the header line, collect each header's
column skipping empty cells, then convert single-item lists to bare items.  A data
line with fewer cells than there are headers would raise `IndexError`
(`csv_line_list[i]`), modelled as `none`.  (In round-trip use the headers are the
keys of a Python dict and hence distinct, so the keyed dict update is the same as
the positional one used here.) -/
def csv_to_dict (f : CsvFile) : Option Record :=
  if f.rows.all (fun row => f.header.length ≤ row.length) then
    some (f.header.enum.map (fun p => (p.2, collapseSingleton (csvColumn f.rows p.1))))
  else none

/-- The value the claim expects back after a write/read round trip: scalars and
single-element lists come back as scalars, every other list comes back unchanged. -/
def readBackVal : PyVal → PyVal
  | .scalar q => .scalar q
  | .seq [q] => .scalar q
  | .seq l => .seq l

/-- In a record with distinct keys, two entries with the same key are the same
entry. -/
theorem nodup_keys_entry_eq {r : Record} (h : (r.map Prod.fst).Nodup) :
    ∀ e1 ∈ r, ∀ e2 ∈ r, e1.1 = e2.1 → e1 = e2 := by
  induction r with
  | nil => intro e1 he1; exact absurd he1 (by simp)
  | cons a r ih =>
    rw [List.map_cons, List.nodup_cons] at h
    intro e1 he1 e2 he2 hk
    rcases List.mem_cons.mp he1 with h1 | h1 <;> rcases List.mem_cons.mp he2 with h2 | h2
    · rw [h1, h2]
    · exfalso
      apply h.1
      rw [h1] at hk
      rw [hk]
      exact List.mem_map_of_mem Prod.fst h2
    · exfalso
      apply h.1
      rw [h2] at hk
      rw [← hk]
      exact List.mem_map_of_mem Prod.fst h1
    · exact ih h.2 e1 h1 e2 h2 hk

/-- Effect of one iteration of the `dict_to_csv` mutation loop on a dict with
distinct keys: the entry at key `k` (if any) becomes a list, other entries are
untouched. -/
theorem listifyStep_eq {r : Record} (hnd : (r.map Prod.fst).Nodup) (k : String) :
    listifyStep r k =
      r.map (fun e => if e.1 = k then (e.1, PyVal.seq e.2.toSeq) else e) := by
  rcases hk : getKey r k with _ | v
  · have hfe : r.find? (fun e => e.1 == k) = none := by
      rcases hfe2 : r.find? (fun e => e.1 == k) with _ | e0
      · exact hfe2
      · simp [getKey, hfe2] at hk
    have hnone : ∀ e ∈ r, e.1 ≠ k := by
      intro e he
      have := List.find?_eq_none.mp hfe e he
      simpa using this
    unfold listifyStep
    rw [hk]
    show r = List.map (fun e => if e.1 = k then (e.1, PyVal.seq e.2.toSeq) else e) r
    refine Eq.symm ?_
    have hmap : List.map (fun e => if e.1 = k then (e.1, PyVal.seq e.2.toSeq) else e) r
        = List.map (fun e => e) r := by
      refine List.map_congr_left ?_
      intro e he
      simp [hnone e he]
    rw [hmap]
    simp
  · obtain ⟨e0, hfe, hsnd⟩ : ∃ e0, r.find? (fun e => e.1 == k) = some e0 ∧ e0.2 = v := by
      rcases hfe2 : r.find? (fun e => e.1 == k) with _ | e0
      · simp [getKey, hfe2] at hk
      · refine ⟨e0, hfe2, ?_⟩
        simpa [getKey, hfe2] using hk
    have he0r : e0 ∈ r := List.mem_of_find?_eq_some hfe
    have he0k : e0.1 = k := by simpa using List.find?_some hfe
    have huniq : ∀ e ∈ r, e.1 = k → e = e0 := fun e he hek =>
      nodup_keys_entry_eq hnd e he e0 he0r (hek.trans he0k.symm)
    rcases v with q | l
    · unfold listifyStep
      rw [hk]
      show setKey r k (PyVal.seq [q])
        = List.map (fun e => if e.1 = k then (e.1, PyVal.seq e.2.toSeq) else e) r
      unfold setKey
      refine List.map_congr_left ?_
      intro e he
      by_cases hek : e.1 = k
      · have he0 : e = e0 := huniq e he hek
        have hv2 : e.2 = PyVal.scalar q := by rw [he0, hsnd]
        simp [hek, hv2, PyVal.toSeq]
      · simp [hek]
    · unfold listifyStep
      rw [hk]
      show r = List.map (fun e => if e.1 = k then (e.1, PyVal.seq e.2.toSeq) else e) r
      refine Eq.symm ?_
      have hmap : List.map (fun e => if e.1 = k then (e.1, PyVal.seq e.2.toSeq) else e) r
          = List.map (fun e => e) r := by
        refine List.map_congr_left ?_
        intro e he
        by_cases hek : e.1 = k
        · have he0 : e = e0 := huniq e he hek
          have hv2 : e.2 = PyVal.seq l := by rw [he0, hsnd]
          have hpair : (e.1, PyVal.seq e.2.toSeq) = e := by
            rw [hv2]
            show (e.1, PyVal.seq l) = e
            rw [← hv2]
          simpa [hek] using hpair
        · simp [hek]
      rw [hmap]
      simp

/-- `listifyStep` does not change the key column. -/
theorem listifyStep_keys (r : Record) (k : String) :
    (listifyStep r k).map Prod.fst = r.map Prod.fst := by
  unfold listifyStep
  rcases getKey r k with _ | v
  · rfl
  · rcases v with q | l
    · unfold setKey
      rw [List.map_map]
      refine List.map_congr_left ?_
      intro e _
      by_cases hek : e.1 = k <;> simp [Function.comp_def, hek]
    · rfl

/-- Net effect of the whole mutation loop run over an arbitrary key list. -/
theorem foldl_listifyStep_eq (ks : List String) :
    ∀ (r : Record), (r.map Prod.fst).Nodup →
      ks.foldl listifyStep r =
        r.map (fun e => if e.1 ∈ ks then (e.1, PyVal.seq e.2.toSeq) else e) := by
  induction ks with
  | nil =>
    intro r _
    simp
  | cons k ks ih =>
    intro r hnd
    have hnd' : ((listifyStep r k).map Prod.fst).Nodup := by
      rw [listifyStep_keys]; exact hnd
    rw [List.foldl_cons, ih (listifyStep r k) hnd', listifyStep_eq hnd, List.map_map]
    refine List.map_congr_left ?_
    intro e _
    by_cases hek : e.1 = k
    · by_cases hmem : e.1 ∈ ks <;>
        simp [Function.comp_def, hek, hmem, PyVal.toSeq]
    · by_cases hmem : e.1 ∈ ks <;>
        simp [Function.comp_def, hek, hmem]

/-- Net effect of the `dict_to_csv` mutation loop on a dict (distinct keys): every
value becomes the list form of itself, keys and order untouched. -/
theorem dictListify_eq (r : Record) (hnd : (r.map Prod.fst).Nodup) :
    dictListify r = r.map (fun e => (e.1, PyVal.seq e.2.toSeq)) := by
  unfold dictListify
  rw [foldl_listifyStep_eq (r.map Prod.fst) r hnd]
  refine List.map_congr_left ?_
  intro e he
  have hmem : e.1 ∈ r.map Prod.fst := List.mem_map_of_mem Prod.fst he
  simp [hmem]

/-- Every element of a list of naturals is bounded by `foldl max a`. -/
theorem le_foldl_max (l : List ℕ) : ∀ (a : ℕ), ∀ x ∈ l, x ≤ l.foldl max a := by
  have hbase : ∀ (l : List ℕ) (a : ℕ), a ≤ l.foldl max a := by
    intro l
    induction l with
    | nil => intro a; simp
    | cons y l ih =>
      intro a
      calc a ≤ max a y := le_max_left a y
        _ ≤ (y :: l).foldl max a := ih (max a y)
  induction l with
  | nil => intro a x hx; exact absurd hx (by simp)
  | cons y l ih =>
    intro a x hx
    rcases List.mem_cons.mp hx with h | h
    · calc x = y := h
        _ ≤ max a y := le_max_right a y
        _ ≤ (y :: l).foldl max a := hbase l (max a y)
    · exact ih (max a y) x h

/-- Collecting `l.get? j` over `j < m` with all indices in range recovers `l`. -/
theorem range_filterMap_get {α : Type} (l : List α) (m : ℕ) (h : l.length ≤ m) :
    (List.range m).filterMap (fun j => l.get? j) = l := by
  induction l generalizing m with
  | nil => simp
  | cons x xs ih =>
    cases m with
    | zero => exact absurd h (by simp)
    | succ m =>
      rw [List.range_succ_eq_map, List.filterMap_cons, List.filterMap_map]
      have hfun : ((fun j => (x :: xs).get? j) ∘ Nat.succ) = fun j => xs.get? j := by
        funext j
        rfl
      rw [hfun]
      simp only [List.get?]
      rw [ih m (by simpa using h)]

/-- **C10.**  `dict_to_csv` mutates its input record in place: the lines 52-55 loop
replaces every non-list value by the singleton list containing it, leaves list
values (and the set and order of keys) unchanged, and nothing restores the caller's
record after writing. -/
theorem c10_dict_to_csv_mutation (r : Record) (hnd : (r.map Prod.fst).Nodup) :
    dictListify r = r.map (fun e => (e.1, PyVal.seq e.2.toSeq)) ∧
    (dictListify r).map Prod.fst = r.map Prod.fst ∧
    (∀ e ∈ r, e.2.isList = true → e ∈ dictListify r) := by
  have hmain := dictListify_eq r hnd
  refine ⟨hmain, ?_, ?_⟩
  · rw [hmain, List.map_map]
    refine List.map_congr_left ?_
    intro e _
    rfl
  · intro e he hl
    rw [hmain]
    rcases e with ⟨k, v⟩
    rcases v with q | l
    · simp [PyVal.isList] at hl
    · have : ((fun e : String × PyVal => (e.1, PyVal.seq e.2.toSeq)) (k, PyVal.seq l))
          = (k, PyVal.seq l) := by
        simp [PyVal.toSeq]
      rw [← this]
      exact List.mem_map_of_mem _ he

/-- **C10, witness.**  Concrete record `{"a": 1.0, "b": [2.0, 3.0]}`: after the
mutation loop, `"a"` holds `[1.0]` and `"b"` is untouched. -/
theorem c10_dict_to_csv_mutation_witness :
    dictListify [("a", PyVal.scalar 1), ("b", PyVal.seq [2, 3])] =
        [("a", PyVal.seq [1]), ("b", PyVal.seq [2, 3])] ∧
      (dictListify [("a", PyVal.scalar 1), ("b", PyVal.seq [2, 3])]).map Prod.fst =
        ["a", "b"] ∧
      ("b", PyVal.seq [2, 3]) ∈ dictListify [("a", PyVal.scalar 1), ("b", PyVal.seq [2, 3])] := by
  have h := c10_dict_to_csv_mutation [("a", PyVal.scalar 1), ("b", PyVal.seq [2, 3])]
    (by decide)
  refine ⟨?_, ?_, ?_⟩
  · rw [h.1]
    decide
  · rw [h.2.1]
    decide
  · exact h.2.2 ("b", PyVal.seq [2, 3]) (by decide) (by decide)

/-- A one-element column collapses to the scalar it holds; this matches
`readBackVal` on the round trip. -/
theorem collapseSingleton_toSeq (v : PyVal) : collapseSingleton v.toSeq = readBackVal v := by
  rcases v with q | l
  · rfl
  · rcases l with _ | ⟨a, _ | ⟨b, t⟩⟩ <;> rfl

/-- **C4.**  Writing a nonempty record with `dict_to_csv` and re-reading with
`csv_to_dict`: the file's header row is the key list; there is one data row per index
up to the longest value list, row `i` holding for each field its `i`-th element, or an
empty cell when that field's list is shorter (so `{"a": [1,2,3], "b": [1]}` yields 3
data rows with column `b` empty in rows 2 and 3); and reading the file back reproduces
the original keys, values and scalar/sequence structure, with single-row sequences
read back as scalars. -/
theorem c4_csv_round_trip (r : Record) (hne : r ≠ []) (hnd : (r.map Prod.fst).Nodup) :
    ∃ f, dict_to_csv r = some f ∧
      f.header = r.map Prod.fst ∧
      f.rows.length = maxListSize r ∧
      (∀ i, i < maxListSize r →
        f.rows.get? i = some (r.map (fun e => e.2.toSeq.get? i))) ∧
      csv_to_dict f = some (r.map (fun e => (e.1, readBackVal e.2))) := by
  have hlist := dictListify_eq r hnd
  have hh : (dictListify r).map Prod.fst = r.map Prod.fst := by
    rw [hlist, List.map_map]
    exact List.map_congr_left (fun e _ => rfl)
  have hms : maxListSize (dictListify r) = maxListSize r := by
    unfold maxListSize
    rw [hlist, List.map_map]
    rfl
  have hcell : ∀ i : ℕ, (dictListify r).map (fun e => e.2.toSeq.get? i)
      = r.map (fun e => e.2.toSeq.get? i) := by
    intro i
    rw [hlist, List.map_map]
    rfl
  have hni : ¬ (r.isEmpty = true) := by
    simp only [List.isEmpty_iff]
    exact hne
  refine ⟨⟨r.map Prod.fst,
    (List.range (maxListSize r)).map (fun i => r.map (fun e => e.2.toSeq.get? i))⟩,
    ?_, rfl, ?_, ?_, ?_⟩
  · unfold dict_to_csv
    rw [if_neg hni]
    show some (CsvFile.mk ((dictListify r).map Prod.fst)
        ((List.range (maxListSize (dictListify r))).map
          (fun i => (dictListify r).map (fun e => e.2.toSeq.get? i))))
      = some (CsvFile.mk (r.map Prod.fst)
        ((List.range (maxListSize r)).map (fun i => r.map (fun e => e.2.toSeq.get? i))))
    rw [hh, hms, show (fun i => (dictListify r).map (fun e => e.2.toSeq.get? i))
      = (fun i => r.map (fun e => e.2.toSeq.get? i)) from funext hcell]
  · simp
  · intro i hi
    rw [List.get?_map, List.get?_range hi]
    rfl
  · have hguard : ((List.range (maxListSize r)).map
        (fun i => r.map (fun e => e.2.toSeq.get? i))).all
          (fun row => (r.map Prod.fst).length ≤ row.length) = true := by
      rw [List.all_eq_true]
      intro row hrow
      obtain ⟨i, _, hrow2⟩ := List.mem_map.mp hrow
      simp [← hrow2]
    have hcol : ∀ (n : ℕ) (e : String × PyVal), r.get? n = some e →
        csvColumn ((List.range (maxListSize r)).map
          (fun i => r.map (fun e2 => e2.2.toSeq.get? i))) n = e.2.toSeq := by
      intro n e hre
      unfold csvColumn
      rw [List.filterMap_map]
      have hre2 : r[n]? = some e := by
        rw [← List.get?_eq_getElem?]
        exact hre
      have hfun : ((fun row : List (Option ℚ) => (row.get? n).join) ∘
            (fun i => r.map (fun e2 => e2.2.toSeq.get? i)))
          = fun i => e.2.toSeq.get? i := by
        funext i
        simp [Function.comp_def, List.get?_map, hre2]
      rw [hfun]
      refine range_filterMap_get _ _ ?_
      have hmem : e ∈ r := List.get?_mem hre
      exact le_foldl_max _ 0 _ (List.mem_map_of_mem _ hmem)
    unfold csv_to_dict
    rw [if_pos hguard]
    congr 1
    refine List.ext_get?_iff.mpr ?_
    intro n
    rw [List.get?_map, List.get?_enum, List.get?_map, List.get?_map]
    rcases hre : r.get? n with _ | e
    · simp
    · show some (e.1, collapseSingleton (csvColumn ((List.range (maxListSize r)).map
          (fun i => r.map (fun e2 => e2.2.toSeq.get? i))) n)) = some (e.1, readBackVal e.2)
      rw [hcol n e hre, collapseSingleton_toSeq]

/-- **C4, witness.**  The record `{"a": [1,2,3], "b": [1]}` from the claim,
instantiating the round-trip theorem. -/
theorem c4_csv_round_trip_witness :
    ∃ f, dict_to_csv [("a", PyVal.seq [1, 2, 3]), ("b", PyVal.seq [1])] = some f ∧
      f.header = [("a", PyVal.seq [1, 2, 3]), ("b", PyVal.seq [1])].map Prod.fst ∧
      f.rows.length = maxListSize [("a", PyVal.seq [1, 2, 3]), ("b", PyVal.seq [1])] ∧
      (∀ i, i < maxListSize [("a", PyVal.seq [1, 2, 3]), ("b", PyVal.seq [1])] →
        f.rows.get? i = some ([("a", PyVal.seq [1, 2, 3]), ("b", PyVal.seq [1])].map
          (fun e => e.2.toSeq.get? i))) ∧
      csv_to_dict f = some ([("a", PyVal.seq [1, 2, 3]), ("b", PyVal.seq [1])].map
        (fun e => (e.1, readBackVal e.2))) :=
  c4_csv_round_trip [("a", PyVal.seq [1, 2, 3]), ("b", PyVal.seq [1])]
    (by decide) (by decide)

/-! ## Significant-figure rounding (`src/cp_sim/helper/general.py`, `round_sf`)

```
format_str = "{:." + str(sf) + "g}"
rounded_value = float(format_str.format(value))
```

`"%.{sf}g"` formatting writes the value with `sf` significant decimal digits,
rounding half-to-even, and `float(...)` parses the decimal text back.  Over exact
rationals this is: zero stays zero; otherwise with `e` the decimal exponent of
`|value|` (`10^e ≤ |value| < 10^(e+1)`) and `u = 10^(e-sf+1)` the unit in the last
significant place, the result is `sign * roundHalfEven(|value|/u) * u`. -/

/-- Fuel-driven base-10 logarithm on naturals (the fuel only bounds the recursion
depth; `natLog10` supplies `n` itself, which always suffices). -/
def log10F : ℕ → ℕ → ℕ
  | 0, _ => 0
  | fuel + 1, n => if n < 10 then 0 else log10F fuel (n / 10) + 1

/-- Number of decimal digits of `n`, minus one: the decimal exponent of a natural. -/
def natLog10 (n : ℕ) : ℕ := log10F n n

theorem log10F_spec : ∀ (fuel n : ℕ), 1 ≤ n → n ≤ fuel →
    10 ^ log10F fuel n ≤ n ∧ n < 10 ^ (log10F fuel n + 1) := by
  intro fuel
  induction fuel with
  | zero => intro n h1 h2; omega
  | succ fuel ih =>
    intro n h1 h2
    by_cases hn : n < 10
    · rw [log10F, if_pos hn]
      constructor
      · simpa using h1
      · simpa using hn
    · push_neg at hn
      rw [log10F, if_neg (by omega)]
      have h1q : 1 ≤ n / 10 := by omega
      have h2q : n / 10 ≤ fuel := by omega
      obtain ⟨ihl, ihr⟩ := ih (n / 10) h1q h2q
      constructor
      · calc 10 ^ (log10F fuel (n / 10) + 1) = 10 ^ log10F fuel (n / 10) * 10 := by ring
          _ ≤ n / 10 * 10 := Nat.mul_le_mul_right 10 ihl
          _ ≤ n := by omega
      · calc n < (n / 10 + 1) * 10 := by omega
          _ ≤ 10 ^ (log10F fuel (n / 10) + 1) * 10 := Nat.mul_le_mul_right 10 ihr
          _ = 10 ^ (log10F fuel (n / 10) + 1 + 1) := by ring

theorem natLog10_spec (n : ℕ) (h : 1 ≤ n) :
    10 ^ natLog10 n ≤ n ∧ n < 10 ^ (natLog10 n + 1) :=
  log10F_spec n n h le_rfl

/-- Decimal exponent of a positive rational: the unique `e` with
`10^e ≤ x < 10^(e+1)`. -/
def ratExp10 (x : ℚ) : ℤ :=
  let a : ℤ := natLog10 x.num.natAbs
  let b : ℤ := natLog10 x.den
  if x < (10 : ℚ) ^ (a - b) then a - b - 1 else a - b

theorem ratExp10_spec (x : ℚ) (hx : 0 < x) :
    (10 : ℚ) ^ ratExp10 x ≤ x ∧ x < (10 : ℚ) ^ (ratExp10 x + 1) := by
  have hnumZ : 0 < x.num := Rat.num_pos.mpr hx
  have hnum : 1 ≤ x.num.natAbs := by omega
  have hden : 1 ≤ x.den := x.den_pos
  obtain ⟨ha1, ha2⟩ := natLog10_spec _ hnum
  obtain ⟨hb1, hb2⟩ := natLog10_spec _ hden
  have hdenQ : (0 : ℚ) < (x.den : ℚ) := by exact_mod_cast x.den_pos
  have hnumQ : ((x.num.natAbs : ℚ)) = (x.num : ℚ) := by
    rw [Int.cast_natAbs]
    exact_mod_cast abs_of_nonneg hnumZ.le
  have hx_eq : x = (x.num : ℚ) / (x.den : ℚ) := (Rat.num_div_den x).symm
  set a := natLog10 x.num.natAbs with hadef
  set b := natLog10 x.den with hbdef
  have ha1Q : (10 : ℚ) ^ a ≤ (x.num : ℚ) := by
    rw [← hnumQ]; exact_mod_cast ha1
  have ha2Q : (x.num : ℚ) < (10 : ℚ) ^ (a + 1) := by
    rw [← hnumQ]; exact_mod_cast ha2
  have hb1Q : (10 : ℚ) ^ b ≤ (x.den : ℚ) := by exact_mod_cast hb1
  have hb2Q : (x.den : ℚ) < (10 : ℚ) ^ (b + 1) := by exact_mod_cast hb2
  have hpow : ∀ k : ℕ, (10 : ℚ) ^ (k : ℤ) = (10 : ℚ) ^ k := fun k => zpow_natCast 10 k
  have hlow : (10 : ℚ) ^ ((a : ℤ) - b - 1) < x := by
    have heq : (10 : ℚ) ^ ((a : ℤ) - b - 1) = (10 : ℚ) ^ a / (10 : ℚ) ^ (b + 1) := by
      rw [show (a : ℤ) - b - 1 = (a : ℤ) - ((b : ℤ) + 1) by ring,
        zpow_sub₀ (by norm_num : (10 : ℚ) ≠ 0), hpow a,
        show ((b : ℤ) + 1) = ((b + 1 : ℕ) : ℤ) by push_cast; ring, hpow (b + 1)]
    rw [heq, hx_eq, div_lt_div_iff (by positivity) hdenQ]
    calc (10 : ℚ) ^ a * (x.den : ℚ) < (10 : ℚ) ^ a * (10 : ℚ) ^ (b + 1) := by
          exact mul_lt_mul_of_pos_left hb2Q (by positivity)
      _ ≤ (x.num : ℚ) * (10 : ℚ) ^ (b + 1) := by
          exact mul_le_mul_of_nonneg_right ha1Q (by positivity)
  have hhigh : x < (10 : ℚ) ^ ((a : ℤ) - b + 1) := by
    have heq : (10 : ℚ) ^ ((a : ℤ) - b + 1) = (10 : ℚ) ^ (a + 1) / (10 : ℚ) ^ b := by
      rw [show (a : ℤ) - b + 1 = ((a : ℤ) + 1) - (b : ℤ) by ring,
        zpow_sub₀ (by norm_num : (10 : ℚ) ≠ 0),
        show ((a : ℤ) + 1) = ((a + 1 : ℕ) : ℤ) by push_cast; ring, hpow (a + 1), hpow b]
    rw [heq, hx_eq, div_lt_div_iff hdenQ (by positivity)]
    calc (x.num : ℚ) * (10 : ℚ) ^ b < (10 : ℚ) ^ (a + 1) * (10 : ℚ) ^ b := by
          exact mul_lt_mul_of_pos_right ha2Q (by positivity)
      _ ≤ (10 : ℚ) ^ (a + 1) * (x.den : ℚ) := by
          exact mul_le_mul_of_nonneg_left hb1Q (by positivity)
  unfold ratExp10
  rw [← hadef, ← hbdef]
  by_cases hc : x < (10 : ℚ) ^ ((a : ℤ) - b)
  · rw [if_pos hc]
    exact ⟨hlow.le, by simpa [sub_add_cancel] using hc⟩
  · rw [if_neg hc]
    exact ⟨not_lt.mp hc, hhigh⟩

theorem ratExp10_unique (x : ℚ) (hx : 0 < x) (e : ℤ)
    (h1 : (10 : ℚ) ^ e ≤ x) (h2 : x < (10 : ℚ) ^ (e + 1)) : ratExp10 x = e := by
  obtain ⟨g1, g2⟩ := ratExp10_spec x hx
  by_contra hne
  rcases lt_or_gt_of_ne hne with hlt | hgt
  · have : (10 : ℚ) ^ (ratExp10 x + 1) ≤ (10 : ℚ) ^ e := by
      apply zpow_le_zpow_right₀ (by norm_num)
      omega
    linarith
  · have : (10 : ℚ) ^ (e + 1) ≤ (10 : ℚ) ^ ratExp10 x := by
      apply zpow_le_zpow_right₀ (by norm_num)
      omega
    linarith

/-- Round half to even, the rounding used by `%g` formatting. -/
def roundHalfEven (x : ℚ) : ℤ :=
  if x - ⌊x⌋ < 1 / 2 then ⌊x⌋
  else if 1 / 2 < x - ⌊x⌋ then ⌊x⌋ + 1
  else if ⌊x⌋ % 2 = 0 then ⌊x⌋ else ⌊x⌋ + 1

theorem roundHalfEven_bounds (x : ℚ) :
    x - 1 / 2 ≤ (roundHalfEven x : ℚ) ∧ (roundHalfEven x : ℚ) ≤ x + 1 / 2 := by
  have h1 : ((⌊x⌋ : ℚ)) ≤ x := Int.floor_le x
  have h2 : x < (⌊x⌋ : ℚ) + 1 := Int.lt_floor_add_one x
  unfold roundHalfEven
  by_cases hc1 : x - (⌊x⌋ : ℚ) < 1 / 2
  · rw [if_pos hc1]
    exact ⟨by linarith, by linarith⟩
  · rw [if_neg hc1]
    push_neg at hc1
    by_cases hc2 : (1 : ℚ) / 2 < x - (⌊x⌋ : ℚ)
    · rw [if_pos hc2]
      push_cast
      exact ⟨by linarith, by linarith⟩
    · rw [if_neg hc2]
      push_neg at hc2
      by_cases hc3 : ⌊x⌋ % 2 = 0
      · rw [if_pos hc3]
        exact ⟨by linarith, by linarith⟩
      · rw [if_neg hc3]
        push_cast
        exact ⟨by linarith, by linarith⟩

/-- `round_sf` (lines 23-35): round to `sf` significant decimal figures. -/
def round_sf (value : ℚ) (sf : ℕ) : ℚ :=
  if value = 0 then 0
  else
    (if value < 0 then -1 else 1) *
      ((roundHalfEven (|value| / (10 : ℚ) ^ (ratExp10 |value| - sf + 1)) : ℚ) *
        (10 : ℚ) ^ (ratExp10 |value| - sf + 1))

end CpSim

namespace CpSim

theorem round_sf_of_pos (y : ℚ) (h0 : 0 < y) :
    round_sf y 5 =
      (roundHalfEven (y / (10 : ℚ) ^ (ratExp10 y - 5 + 1)) : ℚ) *
        (10 : ℚ) ^ (ratExp10 y - 5 + 1) := by
  unfold round_sf
  rw [if_neg (ne_of_gt h0), if_neg (not_lt.mpr h0.le), abs_of_pos h0, one_mul]
  norm_num

/-- A positive value below 10, rounded to 5 significant figures, stays positive and
moves by at most half a unit in the last place, i.e. at most `1/20000`. -/
theorem round_sf_bounds (y : ℚ) (h0 : 0 < y) (h10 : y < 10) :
    0 < round_sf y 5 ∧ |round_sf y 5 - y| ≤ 1 / 20000 := by
  obtain ⟨hs1, hs2⟩ := ratExp10_spec y h0
  set e := ratExp10 y with he
  have he0 : e ≤ 0 := by
    by_contra hpos
    push_neg at hpos
    have h1e : (1 : ℤ) ≤ e := hpos
    have : (10 : ℚ) ^ (1 : ℤ) ≤ (10 : ℚ) ^ e := zpow_le_zpow_right₀ (by norm_num) h1e
    have h10y : (10 : ℚ) ≤ y := by
      calc (10 : ℚ) = (10 : ℚ) ^ (1 : ℤ) := by norm_num
        _ ≤ (10 : ℚ) ^ e := this
        _ ≤ y := hs1
    linarith
  have hu0 : (0 : ℚ) < (10 : ℚ) ^ (e - 5 + 1) := by positivity
  have huB : (10 : ℚ) ^ (e - 5 + 1) ≤ 1 / 10000 := by
    have hle : e - 5 + 1 ≤ (-4 : ℤ) := by omega
    calc (10 : ℚ) ^ (e - 5 + 1) ≤ (10 : ℚ) ^ (-4 : ℤ) :=
          zpow_le_zpow_right₀ (by norm_num) hle
      _ = 1 / 10000 := by norm_num
  obtain ⟨hr1, hr2⟩ := roundHalfEven_bounds (y / (10 : ℚ) ^ (e - 5 + 1))
  have hyu : (1 : ℚ) ≤ y / (10 : ℚ) ^ (e - 5 + 1) := by
    rw [le_div_iff hu0, one_mul]
    calc (10 : ℚ) ^ (e - 5 + 1) ≤ (10 : ℚ) ^ e :=
          zpow_le_zpow_right₀ (by norm_num) (by omega)
      _ ≤ y := hs1
  have hm0 : (0 : ℚ) < (roundHalfEven (y / (10 : ℚ) ^ (e - 5 + 1)) : ℚ) := by linarith
  have hmul : (y / (10 : ℚ) ^ (e - 5 + 1)) * (10 : ℚ) ^ (e - 5 + 1) = y :=
    div_mul_cancel₀ y (ne_of_gt hu0)
  rw [round_sf_of_pos y h0, ← he]
  constructor
  · exact mul_pos hm0 hu0
  · have hdiff : (roundHalfEven (y / (10 : ℚ) ^ (e - 5 + 1)) : ℚ) *
        (10 : ℚ) ^ (e - 5 + 1) - y =
        ((roundHalfEven (y / (10 : ℚ) ^ (e - 5 + 1)) : ℚ) -
          y / (10 : ℚ) ^ (e - 5 + 1)) * (10 : ℚ) ^ (e - 5 + 1) := by
      rw [sub_mul, hmul]
    rw [hdiff, abs_mul, abs_of_pos hu0]
    have habs : |(roundHalfEven (y / (10 : ℚ) ^ (e - 5 + 1)) : ℚ) -
        y / (10 : ℚ) ^ (e - 5 + 1)| ≤ 1 / 2 :=
      abs_le.mpr ⟨by linarith, by linarith⟩
    calc |(roundHalfEven (y / (10 : ℚ) ^ (e - 5 + 1)) : ℚ) -
          y / (10 : ℚ) ^ (e - 5 + 1)| * (10 : ℚ) ^ (e - 5 + 1)
        ≤ (1 / 2) * (1 / 10000) :=
          mul_le_mul habs huB hu0.le (by norm_num)
      _ = 1 / 20000 := by norm_num

/-- The exact value of the Python float `math.pi`
(`884279719003555 * 2^(-48)`). -/
def pyPi : ℚ := 884279719003555 / 281474976710656

/-- The normalization `domain` in `get_grain_dict` (line 191):
`lambda x : round_sf(x, 5) if x > 0 else round_sf(x + 2 * math.pi, 5)`. -/
def domain (x : ℚ) : ℚ :=
  if x > 0 then round_sf x 5 else round_sf (x + 2 * pyPi) 5

/-- For inputs in `(-2π, 2π]`, the normalized-and-rounded component is strictly
positive and at most `2π + 1/20000` (but not necessarily `< 2π`: rounding can land
just above). -/
theorem domain_bounds (x : ℚ) (h1 : -(2 * pyPi) < x) (h2 : x ≤ 2 * pyPi) :
    0 < domain x ∧ domain x ≤ 2 * pyPi + 1 / 20000 := by
  have hpi10 : 2 * pyPi < 10 := by norm_num [pyPi]
  unfold domain
  by_cases hx : x > 0
  · rw [if_pos hx]
    obtain ⟨hb1, hb2⟩ := round_sf_bounds x hx (lt_of_le_of_lt h2 hpi10)
    obtain ⟨hc1, hc2⟩ := abs_le.mp hb2
    exact ⟨hb1, by linarith⟩
  · rw [if_neg hx]
    push_neg at hx
    have hy0 : 0 < x + 2 * pyPi := by linarith
    have hy10 : x + 2 * pyPi < 10 := by linarith
    obtain ⟨hb1, hb2⟩ := round_sf_bounds _ hy0 hy10
    obtain ⟨hc1, hc2⟩ := abs_le.mp hb2
    exact ⟨hb1, by linarith⟩

theorem roundHalfEven_of_gt (x : ℚ) (h : 1 / 2 < x - ⌊x⌋) :
    roundHalfEven x = ⌊x⌋ + 1 := by
  unfold roundHalfEven
  rw [if_neg (by linarith), if_pos h]

/-- The normalization at component value `0` (e.g. the identity orientation):
`round_sf(0 + 2π, 5) = 6.2832`, which is strictly greater than `2π`. -/
theorem domain_zero_eq : domain 0 = 3927 / 625 := by
  have hpos : (0 : ℚ) < 0 + 2 * pyPi := by norm_num [pyPi]
  have he : ratExp10 (0 + 2 * pyPi) = 0 :=
    ratExp10_unique _ hpos 0 (by norm_num [pyPi]) (by norm_num [pyPi])
  unfold domain
  rw [if_neg (by norm_num), round_sf_of_pos _ hpos, he]
  have harg : (0 + 2 * pyPi) / (10 : ℚ) ^ ((0 : ℤ) - 5 + 1)
      = 8842797190035550000 / 140737488355328 := by
    norm_num [pyPi]
  rw [harg]
  have hfl : ⌊(8842797190035550000 : ℚ) / 140737488355328⌋ = 62831 := by norm_num
  have hfr : 1 / 2 < (8842797190035550000 : ℚ) / 140737488355328 -
      ⌊(8842797190035550000 : ℚ) / 140737488355328⌋ := by
    rw [hfl]
    norm_num
  rw [roundHalfEven_of_gt _ hfr, hfl]
  norm_num

/-! ## History reducer (`src/cp_sim/simulate.py`)

`quick_spline` (lines 122-140) scans adjacent pairs of the x list and returns the
linear interpolation at the first bracketing pair, or Python `None` when no pair
brackets the value:

```
for i in range(len(x_list)-1):
    if x_list[i] <= x_value and x_value <= x_list[i+1]:
        gradient = (y_list[i+1]-y_list[i])/(x_list[i+1]-x_list[i])
        y_value = gradient*(x_value - x_list[i]) + y_list[i]
        return y_value
return None
```

Deviations forced by totality, neither exercised by any theorem below (all carry
equal-length and strictly-increasing hypotheses, matching the function's documented
assumption "x_list is sorted"): Python would raise `IndexError` when `y_list` is
shorter than `x_list` (here: `none`), and `ZeroDivisionError` when a bracketing pair
has equal x values (here: `ℚ` division by zero, giving 0). -/

/-- `quick_spline` (lines 122-140). -/
def quick_spline (x_list y_list : List ℚ) (x_value : ℚ) : Option ℚ :=
  match x_list, y_list with
  | x0 :: x1 :: xr, y0 :: y1 :: yr =>
    if x0 ≤ x_value ∧ x_value ≤ x1 then
      some ((y1 - y0) / (x1 - x0) * (x_value - x0) + y0)
    else quick_spline (x1 :: xr) (y1 :: yr) x_value
  | _, _ => none

/-- `get_trajectories` (lines 142-159), as called by `get_grain_dict` (the
`index_list = None` default is never used there): one trajectory per grain index
`i < len(euler_history[0])` that is in `index_list`, in index order.  `state[i]`
would raise on a ragged history; modelled with the `[]` default, unused under the
rectangularity hypotheses of the theorems below.  Indices are `ℤ` because
`get_grain_dict` builds them as `grain_id - 1` in Python integers. -/
def get_trajectories (history : List (List (List ℚ))) (index_list : List ℤ) :
    List (List (List ℚ)) :=
  (List.range (history.headD []).length).filterMap (fun (i : ℕ) =>
    if (i : ℤ) ∈ index_list then some (history.map (fun state => state.getD i []))
    else none)

/-- Python `max` of a nonempty list (`max(strain_list)` at line 187). -/
def maxQ (l : List ℚ) : ℚ := l.foldl max (l.headD 0)

/-- Python `min` of a nonempty list (used to state the claim's
`[min(strain_series), max(strain_series)]` interval). -/
def minQ (l : List ℚ) : ℚ := l.foldl min (l.headD 0)

/-- Line 180: `strain_intervals = ["0p2", "0p4", "0p6", "0p8", "1p0"]`. -/
def strain_intervals : List String := ["0p2", "0p4", "0p6", "0p8", "1p0"]

/-- Line 188: `strain_values = [max_strain*(i+1)/num_intervals for i in
range(num_intervals)]` with `num_intervals = 5`. -/
def strainValues (strain_list : List ℚ) : List ℚ :=
  (List.range 5).map (fun (i : ℕ) => maxQ strain_list * ((i : ℚ) + 1) / 5)

/-- Lines 196-198: the per-component value list of one trajectory,
`[domain(t[c]) for t in trajectory]`.  (`t[c]` modelled with default 0 for a
malformed euler triple; the theorems quantify over the values actually used.) -/
def componentList (trajectory : List (List ℚ)) (c : ℕ) : List ℚ :=
  trajectory.map (fun t => domain (t.getD c 0))

/-- Lines 201-203: `[quick_spline(strain_list, ys, strain) for strain in
strain_values]`. -/
def reducedList (strain_list : List ℚ) (ys : List ℚ) : List (Option ℚ) :=
  (strainValues strain_list).map (fun s => quick_spline strain_list ys s)

/-- Lines 181-185: the dictionary is initialised with the 15 keys
`f"{interval}_{component}"` in loop order, each mapped to `[]`. -/
def initEntries : List (String × List ℚ) :=
  strain_intervals.flatMap (fun si =>
    ["phi_1", "Phi", "phi_2"].map (fun ek => (si ++ "_" ++ ek, ([] : List ℚ))))

/-- Lines 196-211 for one trajectory: the three reduced component lists; `none` when
any entry is Python `None` (`if None in reduced_phi_1_list + reduced_Phi_list +
reduced_phi_2_list: return None`), otherwise the 15 values appended to the dict by
the lines 208-211 loop, in the dict's key order (`(interval i, phi_1), (i, Phi),
(i, phi_2)` for `i = 0..4`; after the check every entry is `some`, so the `getD`
defaults are never taken). -/
def trajVals (strain_list : List ℚ) (trajectory : List (List ℚ)) : Option (List ℚ) :=
  let r1 := reducedList strain_list (componentList trajectory 0)
  let r2 := reducedList strain_list (componentList trajectory 1)
  let r3 := reducedList strain_list (componentList trajectory 2)
  if (r1 ++ r2 ++ r3).any (fun o => o.isNone) then none
  else some ((List.range 5).flatMap (fun i =>
    [(r1.getD i none).getD 0, (r2.getD i none).getD 0, (r3.getD i none).getD 0]))

/-- Lines 208-211: append one trajectory's 15 reduced values to the 15 key lists.
The Python loop appends by key; since the 15 keys are distinct and `vals` is
produced in the same key order as `initEntries`, this is the positional zip. -/
def appendVals (entries : List (String × List ℚ)) (vals : List ℚ) :
    List (String × List ℚ) :=
  (entries.zip vals).map (fun p => (p.1.1, p.1.2 ++ [p.2]))

/-- The lines 193-211 loop over trajectories: fail with `None` at the first
trajectory whose reduction has an out-of-range interpolation, else accumulate. -/
def buildEntries (strain_list : List ℚ) :
    List (List (List ℚ)) → List (String × List ℚ) → Option (List (String × List ℚ))
  | [], es => some es
  | tr :: rest, es =>
    match trajVals strain_list tr with
    | none => none
    | some vs => buildEntries strain_list rest (appendVals es vs)

/-- The dictionary returned by `get_grain_dict`: the `grain_id` key and the 15
interval/component keys. -/
structure GrainDict where
  grain_id : List ℤ
  entries : List (String × List ℚ)
deriving DecidableEq

/-- `get_grain_dict` (lines 161-214). -/
def get_grain_dict (strain_list : List ℚ) (history : List (List (List ℚ)))
    (grain_ids : List ℤ) : Option GrainDict :=
  let index_list := grain_ids.map (fun g => g - 1)
  let trajectories := get_trajectories history index_list
  (buildEntries strain_list trajectories initEntries).map
    (fun es => { grain_id := grain_ids, entries := es })

/-- In a strictly increasing list, the head is below every tail element. -/
theorem pairwise_head_lt_getD (l : List ℚ) (a : ℚ)
    (hp : (a :: l).Pairwise (· < ·)) : ∀ k, k < l.length → a < l.getD k 0 := by
  intro k hk
  have hmem : l.getD k 0 ∈ l := by
    rw [List.getD_eq_getElem l 0 hk]
    exact List.getElem_mem hk
  exact (List.pairwise_cons.mp hp).1 _ hmem

/-- In a strictly increasing list, the head is at most every element. -/
theorem pairwise_head_le_getD (l : List ℚ) (a : ℚ)
    (hp : (a :: l).Pairwise (· < ·)) :
    ∀ j, j < (a :: l).length → a ≤ (a :: l).getD j 0 := by
  intro j hj
  cases j with
  | zero => simp [List.getD]
  | succ k =>
    have hk : k < l.length := by simpa using hj
    have := pairwise_head_lt_getD l a hp k hk
    simpa [List.getD] using this.le

/-- In a strictly increasing list, the head is at most the last element. -/
theorem pairwise_le_getLastD (l : List ℚ) (a : ℚ)
    (hp : (a :: l).Pairwise (· < ·)) : a ≤ l.getLastD a := by
  induction l generalizing a with
  | nil => simp
  | cons b l ih =>
    have hab : a < b := (List.pairwise_cons.mp hp).1 b (by simp)
    have hb := ih b (List.pairwise_cons.mp hp).2
    calc a ≤ b := hab.le
      _ ≤ l.getLastD b := hb
      _ = (b :: l).getLastD a := (List.getLastD_cons a b l).symm

/-- `foldl max` over a list whose elements all dominate the seed start. -/
theorem foldl_max_sorted (l : List ℚ) (a : ℚ)
    (hp : (a :: l).Pairwise (· < ·)) : l.foldl max a = l.getLastD a := by
  induction l generalizing a with
  | nil => simp
  | cons b l ih =>
    have hab : a < b := (List.pairwise_cons.mp hp).1 b (by simp)
    rw [List.foldl_cons, max_eq_right hab.le, ih b (List.pairwise_cons.mp hp).2,
      List.getLastD_cons]

theorem foldl_min_of_le (l : List ℚ) : ∀ (a : ℚ), (∀ x ∈ l, a ≤ x) → l.foldl min a = a := by
  induction l with
  | nil => intro a _; rfl
  | cons b l ih =>
    intro a h
    rw [List.foldl_cons, min_eq_left (h b (by simp))]
    exact ih a (fun x hx => h x (by simp [hx]))

/-- Under strict sorting, Python `max(strain_list)` is the last element. -/
theorem maxQ_sorted (a : ℚ) (l : List ℚ) (hp : (a :: l).Pairwise (· < ·)) :
    maxQ (a :: l) = (a :: l).getLastD 0 := by
  unfold maxQ
  rw [List.getLastD_cons]
  show (a :: l).foldl max a = l.getLastD a
  rw [List.foldl_cons, max_self]
  exact foldl_max_sorted l a hp

/-- Under strict sorting, Python `min(strain_list)` is the head. -/
theorem minQ_sorted (a : ℚ) (l : List ℚ) (hp : (a :: l).Pairwise (· < ·)) :
    minQ (a :: l) = a := by
  unfold minQ
  show (a :: l).foldl min a = a
  rw [List.foldl_cons, min_self]
  exact foldl_min_of_le l a
    (fun x hx => ((List.pairwise_cons.mp hp).1 x hx).le)

/-- With fewer than two x samples the scan `for i in range(len(x_list)-1)` never
runs and `quick_spline` returns `None`. -/
theorem quick_spline_none_short (xs ys : List ℚ) (v : ℚ) (h : xs.length < 2) :
    quick_spline xs ys v = none := by
  rcases xs with _ | ⟨x0, _ | ⟨x1, xr⟩⟩
  · rcases ys with _ | ⟨y0, ys⟩ <;> rfl
  · rcases ys with _ | ⟨y0, ys⟩ <;> rfl
  · simp at h
    omega

/-- `quick_spline` finds a bracketing interval exactly when the value lies between
the first and last samples of a strictly increasing x list (with matching y list). -/
theorem quick_spline_isSome_iff :
    ∀ (xs ys : List ℚ) (v : ℚ), xs.Pairwise (· < ·) → ys.length = xs.length →
      2 ≤ xs.length →
      ((quick_spline xs ys v).isSome = true ↔
        (xs.headD 0 ≤ v ∧ v ≤ xs.getLastD 0)) := by
  intro xs
  induction xs with
  | nil => intro ys v _ _ h2; simp at h2
  | cons x0 xs ih =>
    intro ys v hp hlen h2
    rcases xs with _ | ⟨x1, xr⟩
    · simp at h2
    rcases ys with _ | ⟨y0, ys'⟩
    · simp at hlen
    rcases ys' with _ | ⟨y1, yr⟩
    · simp at hlen
    have hlen' : (y1 :: yr).length = (x1 :: xr).length := by simpa using hlen
    have hp' : (x1 :: xr).Pairwise (· < ·) := (List.pairwise_cons.mp hp).2
    have h01 : x0 < x1 := (List.pairwise_cons.mp hp).1 x1 (by simp)
    show ((if x0 ≤ v ∧ v ≤ x1 then
        some ((y1 - y0) / (x1 - x0) * (v - x0) + y0)
      else quick_spline (x1 :: xr) (y1 :: yr) v).isSome = true ↔ _)
    by_cases hbr : x0 ≤ v ∧ v ≤ x1
    · rw [if_pos hbr]
      simp only [Option.isSome_some, true_iff]
      refine ⟨by simpa using hbr.1, ?_⟩
      calc v ≤ x1 := hbr.2
        _ ≤ xr.getLastD x1 := pairwise_le_getLastD xr x1 hp'
        _ = (x0 :: x1 :: xr).getLastD 0 := by
            rw [List.getLastD_cons, List.getLastD_cons]
    · rw [if_neg hbr]
      rcases xr with _ | ⟨x2, xr'⟩
      · have hnone : quick_spline [x1] [y1] v = none :=
          quick_spline_none_short _ _ _ (by simp)
        rcases yr with _ | ⟨z, zr⟩
        · rw [hnone]
          simp only [Option.isSome_none, Bool.false_eq_true, false_iff]
          intro hc
          exact hbr ⟨by simpa using hc.1, by simpa [List.getLastD_cons] using hc.2⟩
        · simp at hlen
      · have hiff := ih (y1 :: yr) v hp' hlen' (by simp)
        rw [hiff]
        have hlast : (x1 :: x2 :: xr').getLastD 0 = (x0 :: x1 :: x2 :: xr').getLastD 0 := by
          simp [List.getLastD_cons]
        constructor
        · rintro ⟨hv1, hv2⟩
          refine ⟨by simpa using le_of_lt (lt_of_lt_of_le h01 (by simpa using hv1)), ?_⟩
          rw [← hlast]
          exact hv2
        · rintro ⟨hv1, hv2⟩
          constructor
          · by_contra hlt
            push_neg at hlt
            exact hbr ⟨by simpa using hv1, by simpa using hlt.le⟩
          · rw [hlast]
            exact hv2

/-- `quick_spline` returns `None` exactly when there are fewer than two samples or
the value is outside `[min(x_list), max(x_list)]`, for a strictly increasing x list
and a y list of the same length. -/
theorem quick_spline_eq_none_iff (xs ys : List ℚ) (v : ℚ)
    (hp : xs.Pairwise (· < ·)) (hlen : ys.length = xs.length) :
    quick_spline xs ys v = none ↔
      (xs.length < 2 ∨ v < minQ xs ∨ maxQ xs < v) := by
  by_cases h2 : 2 ≤ xs.length
  · rcases xs with _ | ⟨x0, xs'⟩
    · simp at h2
    have hmin : minQ (x0 :: xs') = x0 := minQ_sorted x0 xs' hp
    have hmax : maxQ (x0 :: xs') = (x0 :: xs').getLastD 0 := maxQ_sorted x0 xs' hp
    have hiff := quick_spline_isSome_iff (x0 :: xs') ys v hp hlen h2
    rw [← Option.not_isSome_iff_eq_none, hiff, hmin, hmax]
    have hh : (x0 :: xs').headD 0 = x0 := rfl
    rw [hh]
    constructor
    · intro h
      rcases not_and_or.mp h with h | h
      · exact Or.inr (Or.inl (not_le.mp h))
      · exact Or.inr (Or.inr (not_le.mp h))
    · intro h
      rcases h with h | h | h
      · omega
      · exact fun hc => absurd hc.1 (not_le.mpr h)
      · exact fun hc => absurd hc.2 (not_le.mpr h)
  · push_neg at h2
    simp [quick_spline_none_short xs ys v h2, h2]

/-- Interpolated values stay inside any bounds enclosing all y values (the result at
a bracketing pair is a convex combination of its two endpoint values). -/
theorem quick_spline_mem_bounds :
    ∀ (xs ys : List ℚ) (v w lo hi : ℚ), xs.Pairwise (· < ·) →
      (∀ y ∈ ys, lo < y ∧ y ≤ hi) → quick_spline xs ys v = some w →
      lo < w ∧ w ≤ hi := by
  intro xs
  induction xs with
  | nil =>
    intro ys v w lo hi _ _ hsome
    rcases ys with _ | ⟨y0, ys⟩ <;> simp [quick_spline] at hsome
  | cons x0 xs ih =>
    intro ys v w lo hi hp hb hsome
    rcases xs with _ | ⟨x1, xr⟩
    · rcases ys with _ | ⟨y0, ys⟩ <;> simp [quick_spline] at hsome
    rcases ys with _ | ⟨y0, ys'⟩
    · simp [quick_spline] at hsome
    rcases ys' with _ | ⟨y1, yr⟩
    · simp [quick_spline] at hsome
    have h01 : x0 < x1 := (List.pairwise_cons.mp hp).1 x1 (by simp)
    have hy0 := hb y0 (by simp)
    have hy1 := hb y1 (by simp)
    rw [show quick_spline (x0 :: x1 :: xr) (y0 :: y1 :: yr) v =
        (if x0 ≤ v ∧ v ≤ x1 then
          some ((y1 - y0) / (x1 - x0) * (v - x0) + y0)
        else quick_spline (x1 :: xr) (y1 :: yr) v) from rfl] at hsome
    by_cases hbr : x0 ≤ v ∧ v ≤ x1
    · rw [if_pos hbr, Option.some_inj] at hsome
      have hd : (0 : ℚ) < x1 - x0 := by linarith
      set t : ℚ := (v - x0) / (x1 - x0) with ht
      have ht0 : 0 ≤ t := div_nonneg (by linarith [hbr.1]) hd.le
      have ht1 : t ≤ 1 := by
        rw [ht, div_le_one hd]
        linarith [hbr.2]
      have hw : w = (1 - t) * y0 + t * y1 := by
        rw [← hsome, ht]
        field_simp
        ring
      constructor
      · rcases le_or_lt t (1 / 2) with hts | hts
        · have hpos : (0 : ℚ) < 1 - t := by linarith
          calc lo = (1 - t) * lo + t * lo := by ring
            _ < (1 - t) * y0 + t * lo := by
                have := mul_lt_mul_of_pos_left hy0.1 hpos
                linarith
            _ ≤ (1 - t) * y0 + t * y1 := by
                have := mul_le_mul_of_nonneg_left hy1.1.le ht0
                linarith
            _ = w := hw.symm
        · have hpos : (0 : ℚ) < t := by linarith
          calc lo = (1 - t) * lo + t * lo := by ring
            _ ≤ (1 - t) * y0 + t * lo := by
                have := mul_le_mul_of_nonneg_left hy0.1.le (by linarith : (0:ℚ) ≤ 1 - t)
                linarith
            _ < (1 - t) * y0 + t * y1 := by
                have := mul_lt_mul_of_pos_left hy1.1 hpos
                linarith
            _ = w := hw.symm
      · calc w = (1 - t) * y0 + t * y1 := hw
          _ ≤ (1 - t) * hi + t * hi := by
              have h1 := mul_le_mul_of_nonneg_left hy0.2 (by linarith : (0:ℚ) ≤ 1 - t)
              have h2 := mul_le_mul_of_nonneg_left hy1.2 ht0
              linarith
          _ = hi := by ring
    · rw [if_neg hbr] at hsome
      exact ih (y1 :: yr) v w lo hi (List.pairwise_cons.mp hp).2
        (fun y hy => hb y (by simp at hy; rcases hy with h | h <;> simp [h])) hsome

/-- The value returned by `quick_spline` at a value bracketed by samples `i` and
`i+1` of a strictly increasing x list is exactly the linear interpolation of those
two samples (the scan may stop at an earlier pair only when the value coincides
with a shared endpoint, where both formulas agree). -/
theorem quick_spline_bracket :
    ∀ (xs ys : List ℚ) (i : ℕ) (v : ℚ), xs.Pairwise (· < ·) →
      ys.length = xs.length → i + 1 < xs.length →
      xs.getD i 0 ≤ v → v ≤ xs.getD (i + 1) 0 →
      quick_spline xs ys v =
        some ((ys.getD (i + 1) 0 - ys.getD i 0) / (xs.getD (i + 1) 0 - xs.getD i 0) *
          (v - xs.getD i 0) + ys.getD i 0) := by
  intro xs
  induction xs with
  | nil => intro ys i v _ _ hi; simp at hi
  | cons x0 xs ih =>
    intro ys i v hp hlen hi hv1 hv2
    rcases xs with _ | ⟨x1, xr⟩
    · simp at hi
    rcases ys with _ | ⟨y0, ys'⟩
    · simp at hlen
    rcases ys' with _ | ⟨y1, yr⟩
    · simp at hlen
    have hlen' : (y1 :: yr).length = (x1 :: xr).length := by simpa using hlen
    have hp' : (x1 :: xr).Pairwise (· < ·) := (List.pairwise_cons.mp hp).2
    have h01 : x0 < x1 := (List.pairwise_cons.mp hp).1 x1 (by simp)
    show (if x0 ≤ v ∧ v ≤ x1 then
        some ((y1 - y0) / (x1 - x0) * (v - x0) + y0)
      else quick_spline (x1 :: xr) (y1 :: yr) v) = _
    cases i with
    | zero =>
      have hv1z : x0 ≤ v := by simpa using hv1
      have hv2z : v ≤ x1 := by simpa using hv2
      rw [if_pos ⟨hv1z, hv2z⟩]
      simp [List.getD_cons_succ, List.getD_cons_zero]
    | succ j =>
      have hv1s : (x1 :: xr).getD j 0 ≤ v := by simpa [List.getD_cons_succ] using hv1
      have hv2s : v ≤ (x1 :: xr).getD (j + 1) 0 := by
        simpa [List.getD_cons_succ] using hv2
      have hj1 : j + 1 < (x1 :: xr).length := by simpa using hi
      by_cases hbr : x0 ≤ v ∧ v ≤ x1
      · have hx1v : x1 ≤ v := by
          calc x1 ≤ (x1 :: xr).getD j 0 :=
                pairwise_head_le_getD xr x1 hp' j (by omega)
            _ ≤ v := hv1s
        have hveq : v = x1 := le_antisymm hbr.2 hx1v
        cases j with
        | zero =>
          rw [if_pos hbr]
          have hne : x1 - x0 ≠ 0 := by linarith
          simp only [List.getD_cons_succ, List.getD_cons_zero]
          rw [hveq, div_mul_cancel₀ _ hne]
          congr 1
          ring
        | succ k =>
          exfalso
          have hk : k < xr.length := by simp at hj1; omega
          have hlt : x1 < xr.getD k 0 := pairwise_head_lt_getD xr x1 hp' k hk
          have hle : xr.getD k 0 ≤ v := by simpa [List.getD_cons_succ] using hv1s
          linarith [hveq ▸ hle]
      · rw [if_neg hbr]
        have hres := ih (y1 :: yr) j v hp' hlen' hj1 hv1s hv2s
        rw [hres]
        simp [List.getD_cons_succ]

end CpSim

namespace CpSim

/-- **C8.**  For a strictly increasing `strain_series` and a value `v` bracketed by
adjacent samples `i` and `i+1`, `quick_spline` (the interpolant `get_grain_dict`
evaluates at every target strain) returns exactly the linear interpolation of the
two bracketing samples; and when the y list is exactly linear in the x list,
`f(x) = a*x + b`, the returned value is exactly `a*v + b` — in particular at every
in-range target strain. -/
theorem c8_quick_spline_linear (xs ys : List ℚ) (i : ℕ) (v a b : ℚ)
    (hp : xs.Pairwise (· < ·)) (hlen : ys.length = xs.length)
    (hi : i + 1 < xs.length) (hv1 : xs.getD i 0 ≤ v) (hv2 : v ≤ xs.getD (i + 1) 0) :
    quick_spline xs ys v =
      some ((ys.getD (i + 1) 0 - ys.getD i 0) / (xs.getD (i + 1) 0 - xs.getD i 0) *
        (v - xs.getD i 0) + ys.getD i 0) ∧
    ((∀ j, j < xs.length → ys.getD j 0 = a * xs.getD j 0 + b) →
      quick_spline xs ys v = some (a * v + b)) := by
  have hbra := quick_spline_bracket xs ys i v hp hlen hi hv1 hv2
  refine ⟨hbra, fun hlin => ?_⟩
  rw [hbra]
  congr 1
  have hxi : xs.getD i 0 < xs.getD (i + 1) 0 := by
    have hgi : i < xs.length := by omega
    rw [List.getD_eq_getElem xs 0 hgi, List.getD_eq_getElem xs 0 hi]
    exact List.pairwise_iff_getElem.mp hp i (i + 1) hgi hi (by omega)
  have hne : xs.getD (i + 1) 0 - xs.getD i 0 ≠ 0 := by linarith
  have hA := hlin i (by omega)
  have hB := hlin (i + 1) hi
  set A := xs.getD i 0 with hAdef
  set B := xs.getD (i + 1) 0 with hBdef
  rw [hA, hB]
  field_simp
  ring

/-- **C8, witness.**  Samples `x = [0, 2, 4]`, linear values `y = 2x + 1`, evaluated
at `v = 1` inside the first bracket. -/
theorem c8_quick_spline_linear_witness :
    quick_spline [0, 2, 4] [1, 5, 9] 1 =
      some ((([1, 5, 9] : List ℚ).getD (0 + 1) 0 - ([1, 5, 9] : List ℚ).getD 0 0) /
        (([0, 2, 4] : List ℚ).getD (0 + 1) 0 - ([0, 2, 4] : List ℚ).getD 0 0) *
          (1 - ([0, 2, 4] : List ℚ).getD 0 0) + ([1, 5, 9] : List ℚ).getD 0 0) ∧
    ((∀ j, j < ([0, 2, 4] : List ℚ).length →
        ([1, 5, 9] : List ℚ).getD j 0 = 2 * ([0, 2, 4] : List ℚ).getD j 0 + 1) →
      quick_spline [0, 2, 4] [1, 5, 9] 1 = some (2 * 1 + 1)) :=
  c8_quick_spline_linear [0, 2, 4] [1, 5, 9] 0 1 2 1 (by decide) (by decide)
    (by decide) (by decide) (by decide)

theorem zip_get?_some {α β : Type} :
    ∀ (l1 : List α) (l2 : List β) (k : ℕ) (x : α) (y : β),
      l1.get? k = some x → l2.get? k = some y → (l1.zip l2).get? k = some (x, y) := by
  intro l1
  induction l1 with
  | nil => intro l2 k x y h1 _; simp at h1
  | cons a l1 ih =>
    intro l2 k x y h1 h2
    rcases l2 with _ | ⟨b, l2⟩
    · simp at h2
    cases k with
    | zero =>
      simp only [List.get?] at h1 h2
      simp [List.zip_cons_cons, Option.some_inj.mp h1, Option.some_inj.mp h2]
    | succ k =>
      simp only [List.get?] at h1 h2
      simpa [List.zip_cons_cons] using ih l2 k x y h1 h2

theorem appendVals_length (es : List (String × List ℚ)) (vs : List ℚ)
    (h : es.length ≤ vs.length) : (appendVals es vs).length = es.length := by
  simp [appendVals, List.length_zip]
  omega

theorem appendVals_get? (es : List (String × List ℚ)) (vs : List ℚ)
    (hlen : es.length ≤ vs.length) (k : ℕ) (e : String × List ℚ)
    (hk : es.get? k = some e) :
    ∃ vk, vs.get? k = some vk ∧ (appendVals es vs).get? k = some (e.1, e.2 ++ [vk]) := by
  obtain ⟨hklt, hget⟩ := List.get?_eq_some.mp hk
  have hkv : k < vs.length := lt_of_lt_of_le hklt hlen
  refine ⟨vs.get ⟨k, hkv⟩, List.get?_eq_get hkv, ?_⟩
  have hzip := zip_get?_some es vs k e (vs.get ⟨k, hkv⟩) hk (List.get?_eq_get hkv)
  unfold appendVals
  rw [List.get?_map, hzip]
  rfl

theorem appendVals_keys (es : List (String × List ℚ)) (vs : List ℚ)
    (h : es.length ≤ vs.length) :
    (appendVals es vs).map Prod.fst = es.map Prod.fst := by
  refine List.ext_get?_iff.mpr ?_
  intro n
  rw [List.get?_map, List.get?_map]
  by_cases hn : n < es.length
  · have he : es.get? n = some (es.get ⟨n, hn⟩) := List.get?_eq_get hn
    obtain ⟨vk, _, happ⟩ := appendVals_get? es vs h n (es.get ⟨n, hn⟩) he
    rw [happ, he]
    rfl
  · have h1 : es.get? n = none := List.get?_eq_none.mpr (by omega)
    have h2 : (appendVals es vs).get? n = none := by
      refine List.get?_eq_none.mpr ?_
      rw [appendVals_length es vs h]
      omega
    rw [h1, h2]

/-- Every successful `trajVals` result has one value per dictionary key. -/
theorem trajVals_some_length (sl : List ℚ) (tr : List (List ℚ)) (vs : List ℚ)
    (h : trajVals sl tr = some vs) : vs.length = 15 := by
  unfold trajVals at h
  by_cases hc : (((reducedList sl (componentList tr 0)) ++
      (reducedList sl (componentList tr 1)) ++
      (reducedList sl (componentList tr 2))).any fun o => o.isNone) = true
  · rw [if_pos hc] at h
    simp at h
  · rw [if_neg hc] at h
    rw [← Option.some_inj.mp h]
    rfl

/-- The trajectory loop returns `None` exactly when some trajectory fails. -/
theorem buildEntries_none_iff (sl : List ℚ) :
    ∀ (trajs : List (List (List ℚ))) (es : List (String × List ℚ)),
      buildEntries sl trajs es = none ↔ ∃ tr ∈ trajs, trajVals sl tr = none := by
  intro trajs
  induction trajs with
  | nil => intro es; simp [buildEntries]
  | cons tr rest ih =>
    intro es
    show (match trajVals sl tr with
      | none => none
      | some vs => buildEntries sl rest (appendVals es vs)) = none ↔ _
    rcases htv : trajVals sl tr with _ | vs
    · simp [htv]
    · simp only [htv]
      rw [ih (appendVals es vs)]
      constructor
      · rintro ⟨tr2, hmem, htv2⟩
        exact ⟨tr2, by simp [hmem], htv2⟩
      · rintro ⟨tr2, hmem, htv2⟩
        rcases List.mem_cons.mp hmem with h | h
        · rw [h] at htv2
          rw [htv2] at htv
          simp at htv
        · exact ⟨tr2, h, htv2⟩

/-- Accumulation invariant of the trajectory loop: keys are preserved and each key's
list grows by exactly one value per trajectory, every appended value coming from
that trajectory's successful reduction. -/
theorem buildEntries_some_spec (sl : List ℚ) :
    ∀ (trajs : List (List (List ℚ))) (es es' : List (String × List ℚ)),
      es.length = 15 → buildEntries sl trajs es = some es' →
      (es'.map Prod.fst = es.map Prod.fst ∧
        ∀ k e, es.get? k = some e → ∃ w, es'.get? k = some (e.1, e.2 ++ w) ∧
          w.length = trajs.length ∧
          ∀ q ∈ w, ∃ tr ∈ trajs, ∃ vs, trajVals sl tr = some vs ∧ q ∈ vs) := by
  intro trajs
  induction trajs with
  | nil =>
    intro es es' _ h
    have hes : es' = es := (Option.some_inj.mp h).symm
    subst hes
    refine ⟨rfl, fun k e hk => ⟨[], by simpa using hk, by simp, by simp⟩⟩
  | cons tr rest ih =>
    intro es es' hlen15 h
    rw [show buildEntries sl (tr :: rest) es = (match trajVals sl tr with
      | none => none
      | some vs => buildEntries sl rest (appendVals es vs)) from rfl] at h
    rcases htv : trajVals sl tr with _ | vs
    · rw [htv] at h
      simp at h
    · rw [htv] at h
      have hvs15 : vs.length = 15 := trajVals_some_length sl tr vs htv
      have hesvs : es.length ≤ vs.length := by omega
      have hlen2 : (appendVals es vs).length = 15 := by
        rw [appendVals_length es vs hesvs, hlen15]
      obtain ⟨hkeys, hspec⟩ := ih (appendVals es vs) es' hlen2 h
      refine ⟨hkeys.trans (appendVals_keys es vs hesvs), ?_⟩
      intro k e hk
      obtain ⟨vk, hvk, happ⟩ := appendVals_get? es vs hesvs k e hk
      obtain ⟨w, hw, hwlen, hwmem⟩ := hspec k (e.1, e.2 ++ [vk]) happ
      refine ⟨vk :: w, ?_, by simpa using hwlen, ?_⟩
      · rw [hw]
        simp
      · intro q hq
        rcases List.mem_cons.mp hq with hq | hq
        · exact ⟨tr, by simp, vs, htv, hq ▸ List.get?_mem hvk⟩
        · obtain ⟨tr2, hmem2, vs2, htv2, hqvs2⟩ := hwmem q hq
          exact ⟨tr2, by simp [hmem2], vs2, htv2, hqvs2⟩

theorem trajVals_eq_def (sl : List ℚ) (tr : List (List ℚ)) :
    trajVals sl tr =
      (if ((reducedList sl (componentList tr 0) ++ reducedList sl (componentList tr 1) ++
          reducedList sl (componentList tr 2)).any fun o => o.isNone) then none
      else some ((List.range 5).flatMap (fun i =>
        [((reducedList sl (componentList tr 0)).getD i none).getD 0,
         ((reducedList sl (componentList tr 1)).getD i none).getD 0,
         ((reducedList sl (componentList tr 2)).getD i none).getD 0]))) := rfl

/-- One trajectory's reduction fails exactly when the strain series has fewer than
two samples or some target strain is outside `[min, max]` of the strain series. -/
theorem trajVals_eq_none_iff (sl : List ℚ) (tr : List (List ℚ))
    (hp : sl.Pairwise (· < ·)) (hlen : tr.length = sl.length) :
    trajVals sl tr = none ↔
      (sl.length < 2 ∨ ∃ s ∈ strainValues sl, s < minQ sl ∨ maxQ sl < s) := by
  have hys : ∀ c : ℕ, (componentList tr c).length = sl.length := fun c => by
    simp [componentList, hlen]
  rw [trajVals_eq_def]
  by_cases hc : ((reducedList sl (componentList tr 0) ++ reducedList sl (componentList tr 1) ++
      reducedList sl (componentList tr 2)).any fun o => o.isNone) = true
  · rw [if_pos hc]
    refine iff_of_true rfl ?_
    obtain ⟨o, homem, honone⟩ := List.any_eq_true.mp hc
    have hoc : ∃ c : ℕ, o ∈ reducedList sl (componentList tr c) := by
      rcases List.mem_append.mp homem with h | h
      · rcases List.mem_append.mp h with h | h
        exacts [⟨0, h⟩, ⟨1, h⟩]
      · exact ⟨2, h⟩
    obtain ⟨c, hoc⟩ := hoc
    obtain ⟨s, hsmem, hseq⟩ := List.mem_map.mp hoc
    have honone2 : quick_spline sl (componentList tr c) s = none := by
      rw [hseq]
      exact Option.isNone_iff_eq_none.mp honone
    have := (quick_spline_eq_none_iff sl (componentList tr c) s hp (hys c)).mp honone2
    rcases this with h | h | h
    exacts [Or.inl h, Or.inr ⟨s, hsmem, Or.inl h⟩, Or.inr ⟨s, hsmem, Or.inr h⟩]
  · rw [if_neg hc]
    refine iff_of_false (by simp) ?_
    intro hrhs
    apply hc
    have hmk : ∀ s, s ∈ strainValues sl →
        (sl.length < 2 ∨ s < minQ sl ∨ maxQ sl < s) →
        ((reducedList sl (componentList tr 0) ++ reducedList sl (componentList tr 1) ++
          reducedList sl (componentList tr 2)).any fun o => o.isNone) = true := by
      intro s hsmem hbad
      apply List.any_eq_true.mpr
      refine ⟨quick_spline sl (componentList tr 0) s, ?_, ?_⟩
      · apply List.mem_append.mpr
        left
        apply List.mem_append.mpr
        left
        exact List.mem_map.mpr ⟨s, hsmem, rfl⟩
      · rw [Option.isNone_iff_eq_none]
        exact (quick_spline_eq_none_iff sl (componentList tr 0) s hp (hys 0)).mpr hbad
    rcases hrhs with h | ⟨s, hsmem, hout⟩
    · have hsmem : maxQ sl * (((0 : ℕ) : ℚ) + 1) / 5 ∈ strainValues sl := by
        unfold strainValues
        exact List.mem_map.mpr ⟨0, List.mem_range.mpr (by omega), rfl⟩
      exact hmk _ hsmem (Or.inl h)
    · exact hmk s hsmem (Or.inr hout)

/-- Each value in a successful trajectory reduction is a `quick_spline` result at
one of the five target strains for one of the three euler components. -/
theorem trajVals_some_vals (sl : List ℚ) (tr : List (List ℚ)) (vs : List ℚ)
    (h : trajVals sl tr = some vs) :
    ∀ q ∈ vs, ∃ c, c < 3 ∧ ∃ s ∈ strainValues sl,
      quick_spline sl (componentList tr c) s = some q := by
  rw [trajVals_eq_def] at h
  by_cases hc : ((reducedList sl (componentList tr 0) ++ reducedList sl (componentList tr 1) ++
      reducedList sl (componentList tr 2)).any fun o => o.isNone) = true
  · rw [if_pos hc] at h
    simp at h
  · rw [if_neg hc] at h
    have hnone : ∀ o, o ∈ (reducedList sl (componentList tr 0) ++
        reducedList sl (componentList tr 1) ++ reducedList sl (componentList tr 2)) →
        o.isNone = false := by
      intro o ho
      by_contra hne
      exact hc (List.any_eq_true.mpr ⟨o, ho, by simpa using hne⟩)
    have main : ∀ c : ℕ, (∀ o ∈ reducedList sl (componentList tr c), o.isNone = false) →
        ∀ i, i < 5 → ∃ s ∈ strainValues sl,
          quick_spline sl (componentList tr c) s =
            some (((reducedList sl (componentList tr c)).getD i none).getD 0) := by
      intro c hcnone i hi5
      have hig : i < (strainValues sl).length := by
        unfold strainValues
        rw [List.length_map, List.length_range]
        omega
      have hget : (reducedList sl (componentList tr c)).get? i =
          some (quick_spline sl (componentList tr c) ((strainValues sl).get ⟨i, hig⟩)) := by
        unfold reducedList
        rw [List.get?_map, List.get?_eq_get hig]
        rfl
      have hmem : quick_spline sl (componentList tr c) ((strainValues sl).get ⟨i, hig⟩) ∈
          reducedList sl (componentList tr c) := List.get?_mem hget
      have hsome : (quick_spline sl (componentList tr c)
          ((strainValues sl).get ⟨i, hig⟩)).isSome = true := by
        have := hcnone _ hmem
        rcases hq : quick_spline sl (componentList tr c) ((strainValues sl).get ⟨i, hig⟩)
          with _ | w
        · rw [hq] at this
          simp at this
        · simp
      obtain ⟨w, hw⟩ := Option.isSome_iff_exists.mp hsome
      refine ⟨(strainValues sl).get ⟨i, hig⟩, List.get_mem _ _ hig, ?_⟩
      rw [List.getD_eq_get?, hget]
      rw [hw]
      rfl
    have hn1 : ∀ o ∈ reducedList sl (componentList tr 0), o.isNone = false := fun o ho =>
      hnone o (List.mem_append.mpr (Or.inl (List.mem_append.mpr (Or.inl ho))))
    have hn2 : ∀ o ∈ reducedList sl (componentList tr 1), o.isNone = false := fun o ho =>
      hnone o (List.mem_append.mpr (Or.inl (List.mem_append.mpr (Or.inr ho))))
    have hn3 : ∀ o ∈ reducedList sl (componentList tr 2), o.isNone = false := fun o ho =>
      hnone o (List.mem_append.mpr (Or.inr ho))
    intro q hq
    rw [← Option.some_inj.mp h] at hq
    obtain ⟨i, hi5, hqmem⟩ := List.mem_flatMap.mp hq
    have hi5' : i < 5 := List.mem_range.mp hi5
    simp only [List.mem_cons, List.not_mem_nil, or_false] at hqmem
    rcases hqmem with hq0 | hq1 | hq2
    · obtain ⟨s, hs, heq⟩ := main 0 hn1 i hi5'
      exact ⟨0, by omega, s, hs, by rw [heq, hq0]⟩
    · obtain ⟨s, hs, heq⟩ := main 1 hn2 i hi5'
      exact ⟨1, by omega, s, hs, by rw [heq, hq1]⟩
    · obtain ⟨s, hs, heq⟩ := main 2 hn3 i hi5'
      exact ⟨2, by omega, s, hs, by rw [heq, hq2]⟩

/-- Every selected trajectory has one orientation row per history step, and each of
its rows is a row of some history state. -/
theorem get_trajectories_shape (history : List (List (List ℚ))) (il : List ℤ) :
    ∀ tr ∈ get_trajectories history il, tr.length = history.length ∧
      ∀ t ∈ tr, ∃ state ∈ history, ∃ i : ℕ, t = state.getD i [] := by
  intro tr htr
  obtain ⟨i, _, hsome⟩ := List.mem_filterMap.mp htr
  by_cases hmem : (i : ℤ) ∈ il
  · rw [if_pos hmem] at hsome
    obtain rfl := Option.some_inj.mp hsome
    refine ⟨by simp, ?_⟩
    intro t ht
    obtain ⟨state, hstate, rfl⟩ := List.mem_map.mp ht
    exact ⟨state, hstate, i, rfl⟩
  · rw [if_neg hmem] at hsome
    simp at hsome

theorem filterMap_if_eq_filter_map {α β : Type} (p : α → Prop) [DecidablePred p]
    (f : α → β) (l : List α) :
    l.filterMap (fun x => if p x then some (f x) else none) =
      (l.filter (fun x => decide (p x))).map f := by
  induction l with
  | nil => rfl
  | cons a l ih =>
    by_cases hp : p a <;> simp [List.filterMap_cons, List.filter_cons, hp, ih]

/-- The number of indices of `range N` whose cast lies in a duplicate-free list of
integers that are all in `[0, N)` is the length of that list. -/
theorem length_filter_range_mem (N : ℕ) (il : List ℤ) (hnd : il.Nodup)
    (hrange : ∀ z ∈ il, 0 ≤ z ∧ z < (N : ℤ)) :
    ((List.range N).filter (fun (i : ℕ) => decide ((i : ℤ) ∈ il))).length = il.length := by
  set jl := il.map Int.toNat with hjl
  have hjnd : jl.Nodup := by
    refine List.Nodup.map_on ?_ hnd
    intro x hx y hy hxy
    have h1 := (hrange x hx).1
    have h2 := (hrange y hy).1
    omega
  have hmemiff : ∀ i : ℕ, ((i : ℤ) ∈ il ↔ i ∈ jl) := by
    intro i
    constructor
    · intro h
      exact List.mem_map.mpr ⟨(i : ℤ), h, by simp⟩
    · intro h
      obtain ⟨z, hz, hzi⟩ := List.mem_map.mp h
      have h0 := (hrange z hz).1
      have hzeq : z = (i : ℤ) := by omega
      exact hzeq ▸ hz
  have hfilter_eq : (List.range N).filter (fun (i : ℕ) => decide ((i : ℤ) ∈ il))
      = (List.range N).filter (fun (i : ℕ) => decide (i ∈ jl)) := by
    apply List.filter_congr
    intro i _
    exact decide_eq_decide.mpr (hmemiff i)
  rw [hfilter_eq]
  have hperm : List.Perm ((List.range N).filter (fun (i : ℕ) => decide (i ∈ jl))) jl := by
    refine (List.perm_ext_iff_of_nodup (List.Nodup.filter _ (List.nodup_range N)) hjnd).mpr ?_
    intro a
    simp only [List.mem_filter, List.mem_range, decide_eq_true_eq]
    constructor
    · rintro ⟨_, h⟩
      exact h
    · intro h
      refine ⟨?_, h⟩
      obtain ⟨z, hz, hza⟩ := List.mem_map.mp h
      have hb1 := (hrange z hz).1
      have hb2 := (hrange z hz).2
      omega
  calc ((List.range N).filter (fun (i : ℕ) => decide (i ∈ jl))).length
      = jl.length := hperm.length_eq
    _ = il.length := by simp [hjl]

/-- A valid, duplicate-free grain selection yields exactly one trajectory per
selected grain. -/
theorem get_trajectories_length (history : List (List (List ℚ))) (il : List ℤ)
    (hnd : il.Nodup)
    (hrange : ∀ z ∈ il, 0 ≤ z ∧ z < (((history.headD []).length : ℕ) : ℤ)) :
    (get_trajectories history il).length = il.length := by
  unfold get_trajectories
  rw [filterMap_if_eq_filter_map (fun i : ℕ => (i : ℤ) ∈ il)
    (fun i => history.map (fun state => state.getD i [])) (List.range _)]
  rw [List.length_map]
  exact length_filter_range_mem _ il hnd hrange

/-- Every key of the freshly initialised grain dictionary starts with the empty
list. -/
theorem init_snd_nil : ∀ e ∈ initEntries, e.2 = ([] : List ℚ) := by decide

end CpSim

namespace CpSim

/-- **C2, counterexample.**  With a single strain sample (`fewer than 2 samples`)
but an empty grain selection, `get_grain_dict` returns a dictionary, not `None`:
the trajectory loop never runs, so no interpolation is attempted and no failure is
signalled, contradicting the claim that the call returns `None` whenever
`strain_series` has fewer than 2 samples. -/
theorem c2_get_grain_dict_counterexample :
    (get_grain_dict [1] [[[0, 0, 0]]] []).isSome = true := by decide

/-- **C2 (amended).**  For a strictly increasing strain series, a history with one
state per strain sample, and a nonempty, duplicate-free, in-range grain selection
(grain ids start at 1): `get_grain_dict` returns `None` iff the strain series has
fewer than 2 samples or some target strain (fraction of the maximum) falls outside
`[min(strain_series), max(strain_series)]`; otherwise it returns a complete summary:
the selected grain ids, all 15 `{interval}_{component}` keys, and one value per
selected grain under every key. -/
theorem c2_get_grain_dict_amended (strain_list : List ℚ)
    (history : List (List (List ℚ))) (grain_ids : List ℤ)
    (hp : strain_list.Pairwise (· < ·))
    (hhlen : history.length = strain_list.length)
    (hne : grain_ids ≠ [])
    (hnd : grain_ids.Nodup)
    (hgr : ∀ g ∈ grain_ids, 1 ≤ g ∧ g - 1 < (((history.headD []).length : ℕ) : ℤ)) :
    (get_grain_dict strain_list history grain_ids = none ↔
      (strain_list.length < 2 ∨
        ∃ s ∈ strainValues strain_list, s < minQ strain_list ∨ maxQ strain_list < s)) ∧
    (∀ d, get_grain_dict strain_list history grain_ids = some d →
      d.grain_id = grain_ids ∧
      d.entries.map Prod.fst = ["0p2_phi_1", "0p2_Phi", "0p2_phi_2", "0p4_phi_1",
        "0p4_Phi", "0p4_phi_2", "0p6_phi_1", "0p6_Phi", "0p6_phi_2", "0p8_phi_1",
        "0p8_Phi", "0p8_phi_2", "1p0_phi_1", "1p0_Phi", "1p0_phi_2"] ∧
      ∀ e ∈ d.entries, e.2.length = grain_ids.length) := by
  set il := grain_ids.map (fun g => g - 1) with hil
  have hilnd : il.Nodup := List.Nodup.map (fun a b hab => by omega) hnd
  have hilrange : ∀ z ∈ il, 0 ≤ z ∧ z < (((history.headD []).length : ℕ) : ℤ) := by
    intro z hz
    obtain ⟨g, hg, hgz⟩ := List.mem_map.mp hz
    have := hgr g hg
    omega
  have htlen : (get_trajectories history il).length = grain_ids.length := by
    rw [get_trajectories_length history il hilnd hilrange, hil, List.length_map]
  have htne : get_trajectories history il ≠ [] := by
    intro hnil
    rw [hnil] at htlen
    exact hne (List.length_eq_zero.mp htlen.symm)
  have htrlen : ∀ tr ∈ get_trajectories history il, tr.length = strain_list.length := by
    intro tr htr
    rw [(get_trajectories_shape history il tr htr).1, hhlen]
  have hgd : get_grain_dict strain_list history grain_ids =
      (buildEntries strain_list (get_trajectories history il) initEntries).map
        (fun es => { grain_id := grain_ids, entries := es }) := rfl
  constructor
  · rw [hgd, Option.map_eq_none', buildEntries_none_iff]
    constructor
    · rintro ⟨tr, htr, htv⟩
      exact (trajVals_eq_none_iff strain_list tr hp (htrlen tr htr)).mp htv
    · intro hrhs
      obtain ⟨tr, htr⟩ := List.exists_mem_of_ne_nil _ htne
      exact ⟨tr, htr, (trajVals_eq_none_iff strain_list tr hp (htrlen tr htr)).mpr hrhs⟩
  · intro d hd
    rw [hgd] at hd
    obtain ⟨es, hes, hmap⟩ := Option.map_eq_some'.mp hd
    obtain ⟨hkeys, hspec⟩ := buildEntries_some_spec strain_list _ initEntries es rfl hes
    refine ⟨by rw [← hmap], ?_, ?_⟩
    · rw [← hmap]
      show es.map Prod.fst = _
      rw [hkeys]
      rfl
    · rw [← hmap]
      show ∀ e ∈ es, e.2.length = grain_ids.length
      intro e he
      obtain ⟨k, hk⟩ := List.mem_iff_get?.mp he
      have hlen_es : es.length = initEntries.length := by
        have := congrArg List.length hkeys
        simpa using this
      have hklt : k < es.length := (List.get?_eq_some.mp hk).1
      have hkil : k < initEntries.length := by omega
      obtain ⟨w, hw, hwlen, _⟩ := hspec k _ (List.get?_eq_get hkil)
      rw [hk] at hw
      have he_eq := Option.some_inj.mp hw
      have hsnd := init_snd_nil (initEntries.get ⟨k, hkil⟩) (List.get_mem _ _ _)
      rw [he_eq]
      show ((initEntries.get ⟨k, hkil⟩).2 ++ w).length = grain_ids.length
      rw [hsnd]
      simpa [htlen] using hwlen

/-- **C2, witness.**  Two strain samples `[0, 1]`, a two-state history of one grain,
selection `[1]`. -/
theorem c2_get_grain_dict_amended_witness :
    ((get_grain_dict [0, 1] [[[0, 0, 0]], [[0, 0, 0]]] [1] = none ↔
      (([0, 1] : List ℚ).length < 2 ∨
        ∃ s ∈ strainValues [0, 1], s < minQ [0, 1] ∨ maxQ [0, 1] < s)) ∧
    (∀ d, get_grain_dict [0, 1] [[[0, 0, 0]], [[0, 0, 0]]] [1] = some d →
      d.grain_id = [1] ∧
      d.entries.map Prod.fst = ["0p2_phi_1", "0p2_Phi", "0p2_phi_2", "0p4_phi_1",
        "0p4_Phi", "0p4_phi_2", "0p6_phi_1", "0p6_Phi", "0p6_phi_2", "0p8_phi_1",
        "0p8_Phi", "0p8_phi_2", "1p0_phi_1", "1p0_Phi", "1p0_phi_2"] ∧
      ∀ e ∈ d.entries, e.2.length = ([(1 : ℤ)] : List ℤ).length)) :=
  c2_get_grain_dict_amended [0, 1] [[[0, 0, 0]], [[0, 0, 0]]] [1]
    (by decide) (by decide) (by decide) (by decide) (by decide)

/-- **C6 (amended).**  Provided the strain series is strictly increasing and every
orientation component value lies in
`(-2π, 2π]` (with `π` the Python float `math.pi`): every value stored in a
returned grain summary is strictly positive and at most `2π + 1/20000` — the
shift by `2π` of nonpositive components lands in `(0, 2π]` before rounding, but
rounding to 5 significant figures may exceed `2π`, so membership in `[0, 2π)` does
not hold (see the counterexample). -/
theorem c6_stored_values_amended (strain_list : List ℚ)
    (history : List (List (List ℚ))) (grain_ids : List ℤ)
    (hp : strain_list.Pairwise (· < ·))
    (hval : ∀ state ∈ history, ∀ i c : ℕ,
      -(2 * pyPi) < (state.getD i []).getD c 0 ∧ (state.getD i []).getD c 0 ≤ 2 * pyPi) :
    ∀ d, get_grain_dict strain_list history grain_ids = some d →
      ∀ e ∈ d.entries, ∀ q ∈ e.2, 0 < q ∧ q ≤ 2 * pyPi + 1 / 20000 := by
  intro d hd e he q hq
  have hgd : get_grain_dict strain_list history grain_ids =
      (buildEntries strain_list
        (get_trajectories history (grain_ids.map (fun g => g - 1))) initEntries).map
        (fun es => { grain_id := grain_ids, entries := es }) := rfl
  rw [hgd] at hd
  obtain ⟨es, hes, hmap⟩ := Option.map_eq_some'.mp hd
  have hed : e ∈ es := by
    rw [← hmap] at he
    exact he
  obtain ⟨k, hk⟩ := List.mem_iff_get?.mp hed
  obtain ⟨hkeys, hspec⟩ := buildEntries_some_spec strain_list _ initEntries es rfl hes
  have hlen_es : es.length = initEntries.length := by
    have := congrArg List.length hkeys
    simpa using this
  have hklt : k < es.length := (List.get?_eq_some.mp hk).1
  have hkil : k < initEntries.length := by omega
  obtain ⟨w, hw, _, hwmem⟩ := hspec k _ (List.get?_eq_get hkil)
  rw [hk] at hw
  have he_eq := Option.some_inj.mp hw
  have hsnd := init_snd_nil (initEntries.get ⟨k, hkil⟩) (List.get_mem _ _ _)
  have hqw : q ∈ w := by
    rw [he_eq] at hq
    simp only [hsnd, List.nil_append] at hq
    exact hq
  obtain ⟨tr, htr, vs, htv, hqvs⟩ := hwmem q hqw
  obtain ⟨c, _, s, _, hqs⟩ := trajVals_some_vals strain_list tr vs htv q hqvs
  have hbnd : ∀ y ∈ componentList tr c, 0 < y ∧ y ≤ 2 * pyPi + 1 / 20000 := by
    intro y hy
    obtain ⟨t, ht, hyt⟩ := List.mem_map.mp hy
    obtain ⟨state, hstate, i, hti⟩ := ((get_trajectories_shape history _ tr htr).2 t ht)
    rw [← hyt, hti]
    exact domain_bounds _ (hval state hstate i c).1 (hval state hstate i c).2
  exact quick_spline_mem_bounds strain_list (componentList tr c) s q 0
    (2 * pyPi + 1 / 20000) hp hbnd hqs

/-- **C6, counterexample.**  A 2-step history of a single grain whose orientation is
the identity `(0, 0, 0)` at both steps (component values `0`), strain series
`[0, 1]`: the reducer succeeds and stores the value
`round_sf(0 + 2π, 5) = 6.2832 = 3927/625` for every key — a value `≥ 2π`, so the
stored angle does not lie in `[0, 2π)` as the claim asserts (the normalization maps
`0` to `6.2832 > 2π`). -/
theorem c6_stored_values_counterexample :
    ∃ d, get_grain_dict [0, 1] [[[0, 0, 0]], [[0, 0, 0]]] [1] = some d ∧
      ∃ e ∈ d.entries, ∃ q ∈ e.2, ¬(q < 2 * pyPi) := by
  have hmax : maxQ [0, 1] = 1 := by
    unfold maxQ
    show max (max (0 : ℚ) 0) 1 = 1
    norm_num
  have hsv : strainValues [0, 1] = [1 / 5, 2 / 5, 3 / 5, 4 / 5, 1] := by
    unfold strainValues
    rw [hmax, show List.range 5 = [0, 1, 2, 3, 4] from rfl]
    simp only [List.map_cons, List.map_nil]
    norm_num
  have hqs : ∀ s : ℚ, 0 ≤ s → s ≤ 1 →
      quick_spline [0, 1] [3927 / 625, 3927 / 625] s = some (3927 / 625) := by
    intro s h0 h1
    show (if (0 : ℚ) ≤ s ∧ s ≤ 1 then
        some (((3927 / 625 : ℚ) - 3927 / 625) / (1 - 0) * (s - 0) + 3927 / 625)
      else quick_spline [1] [3927 / 625] s) = some (3927 / 625)
    rw [if_pos ⟨h0, h1⟩]
    norm_num
  have hrl : reducedList [0, 1] [3927 / 625, 3927 / 625] =
      [some (3927 / 625), some (3927 / 625), some (3927 / 625), some (3927 / 625),
        some (3927 / 625)] := by
    unfold reducedList
    rw [hsv]
    simp only [List.map_cons, List.map_nil]
    rw [hqs (1 / 5) (by norm_num) (by norm_num), hqs (2 / 5) (by norm_num) (by norm_num),
      hqs (3 / 5) (by norm_num) (by norm_num), hqs (4 / 5) (by norm_num) (by norm_num),
      hqs 1 (by norm_num) (by norm_num)]
  have hcl : ∀ c : ℕ, c < 3 → componentList [[0, 0, 0], [0, 0, 0]] c =
      [3927 / 625, 3927 / 625] := by
    intro c hc
    have hstep : componentList [[(0 : ℚ), 0, 0], [0, 0, 0]] c = [domain 0, domain 0] := by
      unfold componentList
      simp only [List.map_cons, List.map_nil]
      rw [show ([(0 : ℚ), 0, 0].getD c 0) = 0 by
        rcases c with _ | _ | _ | c
        · rfl
        · rfl
        · rfl
        · omega]
    rw [hstep, domain_zero_eq]
  have htv : trajVals [0, 1] [[0, 0, 0], [0, 0, 0]] =
      some [3927 / 625, 3927 / 625, 3927 / 625, 3927 / 625, 3927 / 625, 3927 / 625,
        3927 / 625, 3927 / 625, 3927 / 625, 3927 / 625, 3927 / 625, 3927 / 625,
        3927 / 625, 3927 / 625, 3927 / 625] := by
    rw [trajVals_eq_def, hcl 0 (by omega), hcl 1 (by omega), hcl 2 (by omega), hrl]
    rfl
  have hidx : (([(1 : ℤ)]).map (fun g => g - 1)) = [0] := by decide
  have htraj : get_trajectories [[[(0 : ℚ), 0, 0]], [[0, 0, 0]]] [(0 : ℤ)] =
      [[[0, 0, 0], [0, 0, 0]]] := by
    unfold get_trajectories
    rfl
  have hfinal : get_grain_dict [0, 1] [[[0, 0, 0]], [[0, 0, 0]]] [1] =
      some ⟨[1], appendVals initEntries [3927 / 625, 3927 / 625, 3927 / 625, 3927 / 625,
        3927 / 625, 3927 / 625, 3927 / 625, 3927 / 625, 3927 / 625, 3927 / 625,
        3927 / 625, 3927 / 625, 3927 / 625, 3927 / 625, 3927 / 625]⟩ := by
    show (buildEntries [0, 1]
        (get_trajectories [[[(0 : ℚ), 0, 0]], [[0, 0, 0]]] (([(1 : ℤ)]).map (fun g => g - 1)))
        initEntries).map (fun es => ({ grain_id := [1], entries := es } : GrainDict)) = _
    rw [hidx, htraj]
    show (match trajVals [0, 1] [[0, 0, 0], [0, 0, 0]] with
      | none => none
      | some vs => buildEntries [0, 1] [] (appendVals initEntries vs)).map
        (fun es => ({ grain_id := [1], entries := es } : GrainDict)) = _
    rw [htv]
    rfl
  obtain ⟨t, ht⟩ : ∃ t, appendVals initEntries [3927 / 625, 3927 / 625, 3927 / 625,
      3927 / 625, 3927 / 625, 3927 / 625, 3927 / 625, 3927 / 625, 3927 / 625, 3927 / 625,
      3927 / 625, 3927 / 625, 3927 / 625, 3927 / 625, 3927 / 625] =
      ("0p2_phi_1", [(3927 / 625 : ℚ)]) :: t := ⟨_, rfl⟩
  refine ⟨_, hfinal, ("0p2_phi_1", [(3927 / 625 : ℚ)]), ?_, 3927 / 625, ?_, ?_⟩
  · show ("0p2_phi_1", [(3927 / 625 : ℚ)]) ∈ appendVals initEntries _
    rw [ht]
    exact List.mem_cons_self _ _
  · exact List.mem_cons_self _ _
  · norm_num [pyPi]

/-- **C6, witness.**  Strain series `[0, 1]`, a 2-step history of one grain with all
components equal to `1` (inside `(-2π, 2π]`), selection `[1]`. -/
theorem c6_stored_values_amended_witness :
    List.Pairwise (· < ·) ([0, 1] : List ℚ) ∧
    (∀ d, get_grain_dict [0, 1] [[[1, 1, 1]], [[1, 1, 1]]] [1] = some d →
      ∀ e ∈ d.entries, ∀ q ∈ e.2, 0 < q ∧ q ≤ 2 * pyPi + 1 / 20000) :=
  ⟨by decide, c6_stored_values_amended [0, 1] [[[1, 1, 1]], [[1, 1, 1]]] [1] (by decide)
    (by
      intro state hstate i c
      have hstate_eq : state = [[(1 : ℚ), 1, 1]] := by simpa using hstate
      subst hstate_eq
      have hv : ([[(1 : ℚ), 1, 1]].getD i []).getD c 0 = 0 ∨
          ([[(1 : ℚ), 1, 1]].getD i []).getD c 0 = 1 := by
        rcases i with _ | i
        · rcases c with _ | _ | _ | c
          · right
            rfl
          · right
            rfl
          · right
            rfl
          · left
            simp [List.getD, List.get?]
        · left
          rcases c with _ | c <;> rfl
      rcases hv with h | h <;> rw [h] <;> constructor <;> norm_num [pyPi])⟩

end CpSim

namespace CpSim

/-! ## Top-weight selection (`src/__old__/run_1.py`, `get_top`)

```
top_value_list = []
top_index_list = []
for i in range(len(value_list)):
    value = value_list[i]
    if len(top_value_list) == 0:
        top_value_list.append(value); top_index_list.append(i); continue
    if value < top_value_list[-1] and len(top_value_list) == num_values:
        continue
    for j in range(len(top_value_list)):
        if value > top_value_list[j]:
            top_value_list.insert(j, value); top_index_list.insert(j, i); break
    if len(top_value_list) >= num_values:
        top_value_list.pop(-1); top_index_list.pop(-1)
return top_value_list, top_index_list
```
-/

/-- One iteration of the `get_top` loop on the state `(top_value_list,
top_index_list)` for the entry `(i, value)`. -/
def get_top_step (num_values : ℕ) (st : List ℚ × List ℕ) (iv : ℕ × ℚ) : List ℚ × List ℕ :=
  let tops := st.1
  let idxs := st.2
  let i := iv.1
  let value := iv.2
  if tops.length = 0 then (tops ++ [value], idxs ++ [i])
  else if value < tops.getLastD 0 ∧ tops.length = num_values then st
  else
    let st2 := match tops.findIdx? (fun t => t < value) with
      | some j => (tops.insertIdx j value, idxs.insertIdx j i)
      | none => (tops, idxs)
    if num_values ≤ st2.1.length then (st2.1.dropLast, st2.2.dropLast) else st2

/-- `get_top` (lines 217-245 of `src/__old__/run_1.py`): fold the loop over the
enumerated value list.  (`list.insert(j, v)` with `j < len` is `insertIdx`,
`pop(-1)` is `dropLast`, and the inner `for`/`break` finds the first index whose
buffered value is exceeded by `value`.) -/
def get_top (value_list : List ℚ) (num_values : ℕ) : List ℚ × List ℕ :=
  value_list.enum.foldl (get_top_step num_values) ([], [])

/-- **C5 (code bug).**  On the spec's own end-to-end example, weights
`[0.5, 0.2, 0.3]` with `k = 2`, `get_top` returns `([0.5], [0])`, not the claimed
`([0.5, 0.3], [0, 2])`, and the returned length is 1, not `min(k, len) = 2`: a value
that does not exceed any buffered value is never inserted, even while the buffer is
not yet full, contradicting the function's own docstring ("Gets the top values and
indexes"). -/
theorem c5_get_top_failing_input :
    get_top [1/2, 1/5, 3/10] 2 = ([1/2], [0]) ∧
      (get_top [1/2, 1/5, 3/10] 2).1.length ≠ min 2 3 := by
  have h : get_top [1/2, 1/5, 3/10] 2 = ([1/2], [0]) := by
    norm_num [get_top, get_top_step, List.enum, List.findIdx?]
  exact ⟨h, by rw [h]; decide⟩

end CpSim
